import Mathlib

/-!
Verification of the GPU tile configuration space of `pyvlova`
(`src/pyvlova/autotune/gpu_tile.py`).

The embedding mirrors the Python source.  Python integers are `Int`, and
Python's floor division `//` is `Int.fdiv` (which floors, exactly as `//`
does).  Python `while` loops become structurally recursive functions with an
explicit fuel parameter; the fuel chosen at each call site dominates the
number of iterations of the source loop (the adequacy arguments are part of
the lemmas below), and in the cases where fuel could in principle run out on
meaningless inputs the fuel-exhausted branch coincides with the loop's exit
value.  Fallible code (Python `assert`, `dict` lookup `KeyError`, list
`IndexError`, `ZeroDivisionError`) is modelled with `Except String`.

Memoization note: the constructor fills `self.ft[i][j] = self._f(i, self.a[j])`
and `self.gt[i][j][k] = self.g(i, self.a[j], self.a[k])` in ascending order of
`i` (for `ft`) and of the inner index `k` (for `gt`); each entry that a later
fill or a query reads is already final, so the tables transparently cache the
values of the recursions `_f` and `g` themselves.  The embedding therefore
replaces the table reads `self.ft[k][self.ra[n]]` by `_f k n` and
`self.gt[k][self.ra[n]][self.ra[q]]` by the recursive call `g k n q`, keeping
the membership tests that guard the `self.ra` lookups (`assert n in self.ra`,
`KeyError` for `self.ra[q]`) and the `IndexError` bound for `self.gt[k]`.
-/

namespace Pyvlova

/-- Bridge from Python floor division on non-negative integers to `Nat`
division. -/
theorem fdiv_toNat (a b : Int) (ha : 0 ≤ a) (hb : 0 ≤ b) :
    a.fdiv b = ↑(a.toNat / b.toNat) := by
  lift a to ℕ using ha
  lift b to ℕ using hb
  simp only [Int.toNat_natCast]
  exact (Int.ofNat_fdiv a b).symm

/-- Summation `Σ_{j=1}^{x} h j` as the Python `for`-loop accumulates it
(ascending `j`), structurally recursive base. -/
def gsumGo (h : Int → Int) : Nat → Int
  | 0 => 0
  | m + 1 => gsumGo h m + h (↑m + 1)

/-- Summation `Σ_{j=1}^{x} h j` for an integer upper limit `x` (empty when
`x ≤ 0`, matching Python's `range(1, x + 1)`). -/
def gsum (h : Int → Int) (x : Int) : Int := gsumGo h x.toNat

/-- A `GPUTileConfigEntity` is a Python list subclass carrying `index` and
`total` attributes; modelled as a record whose `tile` field is the list
contents. -/
structure GPUTileConfigEntity where
  index : Int
  total : Int
  tile : List Int
  deriving DecidableEq, Repr

/-- Python's `str` applied to an integer yields its decimal string; the
decimal string is modelled by its sign and its base-10 digit sequence. -/
def pyStr (i : Int) : Bool × List Nat := (decide (i < 0), Nat.digits 10 i.natAbs)

/-- Python's `int` applied to a decimal string; inverse reading of `pyStr`'s
representation. -/
def pyInt (s : Bool × List Nat) : Int :=
  (if s.1 then -1 else 1) * ((Nat.ofDigits 10 s.2 : ℕ) : Int)

/-- The JSON dictionary produced by `GPUTileConfigEntity.to_json_dict`:
string-encoded `index`, string-encoded `total`, and the list of
string-encoded tile sizes. -/
structure TileJsonDict where
  index : Bool × List Nat
  total : Bool × List Nat
  tile : List (Bool × List Nat)

/-- `to_json_dict`: `{'index': str(self.index), 'total': str(self.total),
'tile': list(map(str, self))}`. -/
def GPUTileConfigEntity.to_json_dict (p : GPUTileConfigEntity) : TileJsonDict :=
  ⟨pyStr p.index, pyStr p.total, p.tile.map pyStr⟩

/-- `from_json_dict`: `GPUTileConfigEntity(int(d['index']), int(d['total']),
list(map(int, d['tile'])))`. -/
def GPUTileConfigEntity.from_json_dict (d : TileJsonDict) : GPUTileConfigEntity :=
  ⟨pyInt d.index, pyInt d.total, d.tile.map pyInt⟩

/-- The constructor loop of `GPUTileConfigSpace.__init__` producing the
divisor-block lists `self.a` (distinct quotients) and `self.l`
(multiplicities), paired up:

    cur = 1
    while cur <= n:
        self.a.append(cur)
        self.l.append(n // cur - n // (cur + 1))
        if cur >= n: break
        cur = n // (n // (cur + 1))

Fuel: the loop variable strictly increases, so `n.toNat` steps suffice from
`cur = 1`; the fuel-exhausted value coincides with the loop exit value. -/
def aGo (n : Int) : Nat → Int → List (Int × Int)
  | 0, _ => []
  | fuel + 1, cur =>
    if n < cur then []
    else
      (cur, n.fdiv cur - n.fdiv (cur + 1)) ::
        (if n ≤ cur then [] else aGo n fuel (n.fdiv (n.fdiv (cur + 1))))

/-- `GPUTileConfigSpace(n, b)`: field `n` is the thread budget, field `bIn`
the constructor argument `b` (per-dimension bounds). -/
structure GPUTileConfigSpace where
  n : Int
  bIn : List Int

namespace GPUTileConfigSpace

/-- `self.b = list(b) + [n]`. -/
def b (S : GPUTileConfigSpace) : List Int := S.bIn ++ [S.n]

/-- `self.dim = len(self.b) - 1`. -/
def dim (S : GPUTileConfigSpace) : Nat := S.bIn.length

/-- Access `self.b[k]` (claims only exercise `0 ≤ k ≤ dim`, where the Python
index is in range). -/
def bi (S : GPUTileConfigSpace) (k : Nat) : Int := S.b.getD k 0

/-- `self.a` and `self.l` zipped: the constructor's divisor-block loop run
from `cur = 1`. -/
def al (S : GPUTileConfigSpace) : List (Int × Int) := aGo S.n S.n.toNat 1

/-- `self.a`: ascending distinct values of `n // i`. -/
def aL (S : GPUTileConfigSpace) : List Int := S.al.map Prod.fst

/-- `self.l`: block multiplicities parallel to `self.a`. -/
def lL (S : GPUTileConfigSpace) : List Int := S.al.map Prod.snd

/-- The inner `while` loop of `_f`:

    res, cur = 0, 1
    while cur <= n:
        r = min(n // cur, bd)
        l = n // (cur + 1)
        if r - l >= 1:
            res += (r - l) * self.f(k - 1, cur)
        if cur >= n: break
        cur = n // (n // (cur + 1))
    return res

`h` is the lower level `self.f(k - 1, ·)`.  Fuel as in `aGo`. -/
def fSumGo (h : Int → Int) (bd n : Int) : Nat → Int → Int
  | 0, _ => 0
  | fuel + 1, cur =>
    if n < cur then 0
    else
      (if 1 ≤ min (n.fdiv cur) bd - n.fdiv (cur + 1) then
        (min (n.fdiv cur) bd - n.fdiv (cur + 1)) * h cur
      else 0) +
        (if n ≤ cur then 0 else fSumGo h bd n fuel (n.fdiv (n.fdiv (cur + 1))))

/-- `_f(k, n)` for `k = ↑kN ≥ 0` (the `k < 0` guard lives in `fbar`):

    if k < 0 or n <= 0: return 0
    if k <= 0: return min(n, self.b[0])
    bd = self.b[k]
    ... block loop ...

The recursive occurrence `self.f(k - 1, cur)` is the memoized `f`, whose
tables hold exactly `_f`'s values (see the header note), so it is embedded as
the recursion itself. -/
def fbarN (S : GPUTileConfigSpace) : Nat → Int → Int
  | 0, n => if n ≤ 0 then 0 else min n (S.bi 0)
  | k + 1, n => if n ≤ 0 then 0 else fSumGo (S.fbarN k) (S.bi (k + 1)) n n.toNat 1

/-- `_f(k, n)` with Python's integer argument `k`. -/
def fbar (S : GPUTileConfigSpace) (k n : Int) : Int :=
  if k < 0 then 0 else S.fbarN k.toNat n

/-- `f(k, n)`: the memoized wrapper

    if 0 <= k < self.dim and n in self.ra: return self.ft[k][self.ra[n]]
    return self._f(k, n)

Both branches return `_f(k, n)` (the table holds `_f`'s values), so `f` is
embedded as `_f`. -/
def f (S : GPUTileConfigSpace) (k n : Int) : Int := S.fbar k n

/-- `bf(k, n)`: the brute-force count

    if k < 0 or n <= 0: return 0
    if k <= 0: return min(n, self.b[0])
    res = 0
    for i in range(1, min(self.b[k], n) + 1):
        res += self.bf(k - 1, n // i)
    return res

for `k = ↑kN ≥ 0`. -/
def bfN (S : GPUTileConfigSpace) : Nat → Int → Int
  | 0, n => if n ≤ 0 then 0 else min n (S.bi 0)
  | k + 1, n =>
    if n ≤ 0 then 0 else gsum (fun i => S.bfN k (n.fdiv i)) (min (S.bi (k + 1)) n)

/-- `bf(k, n)` with Python's integer argument `k`. -/
def bf (S : GPUTileConfigSpace) (k n : Int) : Int :=
  if k < 0 then 0 else S.bfN k.toNat n

/-- `g(k, n, x)`:

    assert n in self.ra
    if k < 0 or n <= 0 or x <= 0: return 0
    if k <= 0: return min(n, self.b[0], x)
    if x <= 1: return self.f(k - 1, n)
    q = n // (n // x + 1)
    r = x - q
    return self.gt[k][self.ra[n]][self.ra[q]] + r * self.f(k - 1, n // x)

The table read `self.gt[k][...]` raises `IndexError` when `dim ≤ k`, the
lookup `self.ra[q]` raises `KeyError` when `q` is not a reachable budget, and
the table entry is the value `g(k, n, q)` itself (header note), embedded as
the recursive call.  Fuel: the third argument strictly decreases
(`q < x`), so `x.toNat + 1` suffices. -/
def gGo (S : GPUTileConfigSpace) : Nat → Int → Int → Int → Except String Int
  | 0, _, _, _ => .error "Fuel"
  | fuel + 1, k, n, x =>
    if n ∈ S.aL then
      if k < 0 ∨ n ≤ 0 ∨ x ≤ 0 then .ok 0
      else if k ≤ 0 then .ok (min n (min (S.bi 0) x))
      else if x ≤ 1 then .ok (S.f (k - 1) n)
      else
        if (S.dim : Int) ≤ k then .error "IndexError"
        else if n.fdiv (n.fdiv x + 1) ∈ S.aL then
          (S.gGo fuel k n (n.fdiv (n.fdiv x + 1))).map
            (fun v => v + (x - n.fdiv (n.fdiv x + 1)) * S.f (k - 1) (n.fdiv x))
        else .error "KeyError"
    else .error "AssertionError"

/-- `g(k, n, x)` with adequate fuel. -/
def g (S : GPUTileConfigSpace) (k n x : Int) : Except String Int :=
  S.gGo (x.toNat + 1) k n x

/-- `size()`: `return self.f(self.dim - 1, self.n)`. -/
def size (S : GPUTileConfigSpace) : Int := S.f ((S.dim : Int) - 1) S.n

/-- The binary search inside `rev` for dimension `i` with running budget `n`
and remaining count `c`:

    l, r = 1, min(n, self.b[i]) + 1
    while r - l > 1:
        mid = (l + r) // 2
        if self.g(i, n, mid - 1) <= c:
            l = mid
        else:
            r = mid

Fuel: the gap `r - l` strictly shrinks each iteration, so `(r - l).toNat`
steps suffice; the fuel-exhausted branch coincides with the loop exit. -/
def bsGo (S : GPUTileConfigSpace) (i : Nat) (n c : Int) :
    Nat → Int → Int → Except String Int
  | 0, l, _ => .ok l
  | fuel + 1, l, r =>
    if r - l ≤ 1 then .ok l
    else do
      let gv ← S.g ↑i n ((l + r).fdiv 2 - 1)
      if gv ≤ c then S.bsGo i n c fuel ((l + r).fdiv 2) r
      else S.bsGo i n c fuel l ((l + r).fdiv 2)

/-- The dimension loop of `rev` (`for i in range(self.dim - 1, -1, -1)`);
`revGo d n c` performs the iterations for `i = d - 1, ..., 0` and returns the
slots `res[0 .. d-1]`:

    res[i] = l
    c -= self.g(i, n, l - 1)
    n //= l -/
def revGo (S : GPUTileConfigSpace) : Nat → Int → Int → Except String (List Int)
  | 0, _, _ => .ok []
  | i + 1, n, c => do
    let l ← S.bsGo i n c (min n (S.bi i)).toNat 1 (min n (S.bi i) + 1)
    let gl ← S.g ↑i n (l - 1)
    let rest ← S.revGo i (n.fdiv l) (c - gl)
    pure (rest ++ [l])

/-- `rev(x)` (= `__getitem__` = unrank). -/
def rev (S : GPUTileConfigSpace) (x : Int) : Except String (List Int) :=
  S.revGo S.dim S.n x

/-- The dimension loop of `rank`; `rankGo t d n` accumulates
`r += self.g(i, n, x[i] - 1); n //= x[i]` for `i = d - 1, ..., 0` (a zero
tuple entry raises `ZeroDivisionError` at `n //= x[i]`). -/
def rankGo (S : GPUTileConfigSpace) (t : List Int) : Nat → Int → Except String Int
  | 0, _ => .ok 0
  | i + 1, n => do
    let gv ← S.g ↑i n (t.getD i 0 - 1)
    if t.getD i 0 = 0 then .error "ZeroDivisionError"
    else do
      let rest ← S.rankGo t i (n.fdiv (t.getD i 0))
      pure (gv + rest)

/-- `rank(x)`: `assert len(x) == self.dim`, then the dimension loop. -/
def rank (S : GPUTileConfigSpace) (t : List Int) : Except String Int :=
  if t.length = S.dim then S.rankGo t S.dim S.n else .error "AssertionError"

/-- `get(index)`: `GPUTileConfigEntity(index, len(self), self[index])`. -/
def get (S : GPUTileConfigSpace) (i : Int) : Except String GPUTileConfigEntity := do
  let t ← S.rev i
  pure ⟨i, S.size, t⟩

/-- The spec's nesting rule, checked exactly as stated: iterating `i` from
`dim - 1` down to `0`, require `1 ≤ t[i] ≤ min(bound[i], n_i)` with
`n_{dim-1} = N` and `n_{i-1} = n_i // t[i]`.  `nestB d n t` checks dimensions
`d - 1, ..., 0` with running budget `n`. -/
def nestB (S : GPUTileConfigSpace) : Nat → Int → List Int → Bool
  | 0, _, _ => true
  | i + 1, n, t =>
    (1 ≤ t.getD i 0 ∧ t.getD i 0 ≤ min (S.bi i) n : Bool) &&
      S.nestB i (n.fdiv (t.getD i 0)) t

/-- A legal tuple: correct length and the nesting rule from budget `N`. -/
def legalB (S : GPUTileConfigSpace) (t : List Int) : Bool :=
  (t.length = S.dim : Bool) && S.nestB S.dim S.n t

/-- Mathematical reading of `g` on its good region (proof layer): the prefix
count by the dimension-`i` component; `Σ_{j=1}^{x} f(i-1, n // j)` for
`i ≥ 1` and the clamped `min(n, b[0], x)` for `i = 0`. -/
def gm (S : GPUTileConfigSpace) (i : Nat) (n x : Int) : Int :=
  if x ≤ 0 then 0
  else if i = 0 then min n (min (S.bi 0) x)
  else gsum (fun j => S.bfN (i - 1) (n.fdiv j)) x

/-- Number of legal tuples for dimensions `0 .. d-1` with budget `n` (proof
layer): `cnt 0 n = 1` (empty tuple), `cnt (d+1) n = bf(d, n)`. -/
def cnt (S : GPUTileConfigSpace) : Nat → Int → Int
  | 0, _ => 1
  | d + 1, n => S.bfN d n

end GPUTileConfigSpace

/-- Convenience constructor mirroring `GPUTileConfigSpace(n, b)`. -/
def Sp (n : Int) (b : List Int) : GPUTileConfigSpace := ⟨n, b⟩

end Pyvlova

namespace Pyvlova

theorem gsum_nonpos (h : Int → Int) (x : Int) (hx : x ≤ 0) : gsum h x = 0 := by
  have : x.toNat = 0 := by omega
  rw [gsum, this, gsumGo]

theorem gsum_succ (h : Int → Int) (x : Int) (hx : 1 ≤ x) :
    gsum h x = gsum h (x - 1) + h x := by
  have h1 : x.toNat = (x - 1).toNat + 1 := by omega
  have h2 : ((x - 1).toNat : Int) + 1 = x := by omega
  rw [gsum, h1, gsumGo, h2, gsum]

theorem gsum_const_blockAux (h : Int → Int) (v a : Int) (ha : 0 ≤ a) :
    ∀ (m : Nat) (b : Int), a ≤ b → (b - a).toNat = m →
      (∀ j, a < j → j ≤ b → h j = v) → gsum h b = gsum h a + (b - a) * v
  | 0, b, hab, hk, _ => by
    have hba : b = a := by omega
    subst hba
    ring
  | m + 1, b, hab, hk, hc => by
    have hb1 : a + 1 ≤ b := by omega
    rw [gsum_succ h b (by omega), hc b (by omega) le_rfl,
      gsum_const_blockAux h v a ha m (b - 1) (by omega) (by omega)
        (fun j hj1 hj2 => hc j hj1 (by omega))]
    ring

theorem gsum_const_block (h : Int → Int) (v a b : Int) (ha : 0 ≤ a) (hab : a ≤ b)
    (hc : ∀ j, a < j → j ≤ b → h j = v) :
    gsum h b = gsum h a + (b - a) * v :=
  gsum_const_blockAux h v a ha (b - a).toNat b hab rfl hc

theorem gsum_monoAux (h : Int → Int) (a : Int) (ha : 0 ≤ a) :
    ∀ (m : Nat) (b : Int), a ≤ b → (b - a).toNat = m →
      (∀ j, a < j → j ≤ b → 0 ≤ h j) → gsum h a ≤ gsum h b
  | 0, b, hab, hk, _ => by
    have hba : b = a := by omega
    subst hba
    exact le_rfl
  | m + 1, b, hab, hk, hpos => by
    have hb1 : a + 1 ≤ b := by omega
    have step : gsum h (b - 1) ≤ gsum h b := by
      rw [gsum_succ h b (by omega)]
      have := hpos b (by omega) le_rfl
      omega
    exact le_trans (gsum_monoAux h a ha m (b - 1) (by omega) (by omega)
      (fun j hj1 hj2 => hpos j hj1 (by omega))) step

theorem gsum_mono (h : Int → Int) (a b : Int) (ha : 0 ≤ a) (hab : a ≤ b)
    (hpos : ∀ j, a < j → j ≤ b → 0 ≤ h j) : gsum h a ≤ gsum h b :=
  gsum_monoAux h a ha (b - a).toNat b hab rfl hpos

theorem gsum_nonneg (h : Int → Int) (b : Int)
    (hpos : ∀ j, 1 ≤ j → j ≤ b → 0 ≤ h j) : 0 ≤ gsum h b := by
  rcases le_or_lt b 0 with hb | hb
  · rw [gsum_nonpos h b hb]
  · have h0 : gsum h 0 = 0 := gsum_nonpos h 0 le_rfl
    have := gsum_mono h 0 b le_rfl (by omega) (fun j hj1 hj2 => hpos j (by omega) hj2)
    omega

theorem gsumGo_congr (h h' : Int → Int) :
    ∀ m : Nat, (∀ j : Nat, 1 ≤ j → j ≤ m → h ↑j = h' ↑j) → gsumGo h m = gsumGo h' m
  | 0, _ => rfl
  | m + 1, hc => by
    rw [gsumGo, gsumGo, gsumGo_congr h h' m (fun j h1 h2 => hc j h1 (by omega))]
    have : ((m : Int) + 1) = ↑(m + 1) := by push_cast; ring
    rw [this, hc (m + 1) (by omega) le_rfl]

theorem gsum_congr (h h' : Int → Int) (x : Int)
    (hc : ∀ j, 1 ≤ j → j ≤ x → h j = h' j) : gsum h x = gsum h' x := by
  rw [gsum, gsum]
  exact gsumGo_congr h h' x.toNat (fun j h1 h2 => hc ↑j (by omega) (by omega))

theorem div_block_eq (nn cc jj : Nat) (hlo : nn / (cc + 1) < jj) (hhi : jj ≤ nn / cc) :
    nn / jj = cc := by
  have hj : 0 < jj := Nat.lt_of_le_of_lt (Nat.zero_le _) hlo
  have hc : 0 < cc := by
    rcases Nat.eq_zero_or_pos cc with h | h
    · subst h
      rw [Nat.div_zero] at hhi
      rw [Nat.div_one] at hlo
      omega
    · exact h
  have h1 : cc ≤ nn / jj := by
    rw [Nat.le_div_iff_mul_le hj]
    have := (Nat.le_div_iff_mul_le hc).mp hhi
    nlinarith
  have h2 : nn / jj < cc + 1 := by
    rw [Nat.div_lt_iff_lt_mul hj]
    have hmod := Nat.div_add_mod nn (cc + 1)
    have hlt := Nat.mod_lt nn (y := cc + 1) (by omega)
    nlinarith
  omega

theorem triple_div (nn t : Nat) (ht : 1 ≤ t) (htn : t ≤ nn) :
    nn / (nn / (nn / t)) = nn / t := by
  set m := nn / t with hm
  have hm1 : 1 ≤ m := Nat.div_pos htn ht
  have hmt : m * t ≤ nn := by rw [hm]; exact Nat.div_mul_le_self nn t
  have h1 : t ≤ nn / m := (Nat.le_div_iff_mul_le hm1).mpr (by nlinarith)
  have hnm : 0 < nn / m := by omega
  have h2 : nn / (nn / m) ≤ m := by
    calc nn / (nn / m) ≤ nn / t := Nat.div_le_div_left h1 (by omega)
    _ = m := hm.symm
  have h3 : m ≤ nn / (nn / m) := by
    rw [Nat.le_div_iff_mul_le hnm]
    exact Nat.mul_comm m (nn / m) ▸ Nat.div_mul_le_self nn m
  omega

theorem next_cur_ge (nn cc : Nat) (hc : 1 ≤ cc) (hlt : cc < nn) :
    cc + 1 ≤ nn / (nn / (cc + 1)) := by
  have hd : 1 ≤ nn / (cc + 1) := Nat.div_pos (by omega) (by omega)
  rw [Nat.le_div_iff_mul_le hd]
  exact Nat.mul_comm (cc + 1) (nn / (cc + 1)) ▸ Nat.div_mul_le_self nn (cc + 1)

end Pyvlova

namespace Pyvlova

theorem fdiv_natCast (p q : Nat) : (↑p : Int).fdiv ↑q = ↑(p / q) :=
  (Int.ofNat_fdiv p q).symm

theorem aGo_snd (n : Int) :
    ∀ (fuel : Nat) (cur : Int), ∀ p ∈ aGo n fuel cur,
      p.2 = n.fdiv p.1 - n.fdiv (p.1 + 1)
  | 0, cur, p, hp => by simp [aGo] at hp
  | fuel + 1, cur, p, hp => by
    rw [aGo] at hp
    split at hp
    · simp at hp
    · rcases List.mem_cons.mp hp with h | h
      · subst h; rfl
      · split at h
        · simp at h
        · exact aGo_snd n fuel _ p h

theorem aGo_mem (nn : Nat) :
    ∀ (fuel cc : Nat), 1 ≤ cc → nn + 1 ≤ fuel + cc → nn / (nn / cc) = cc →
      ∀ v : Int, (v ∈ (aGo ↑nn fuel ↑cc).map Prod.fst ↔
        ∃ vv : Nat, v = ↑vv ∧ cc ≤ vv ∧ vv ≤ nn ∧ nn / (nn / vv) = vv)
  | 0, cc, hc, hf, hch, v => by
    constructor
    · intro hv; simp [aGo] at hv
    · rintro ⟨vv, rfl, h1, h2, h3⟩; omega
  | fuel + 1, cc, hc, hf, hch, v => by
    rcases lt_or_le nn cc with hlt | hle
    · rw [aGo, if_pos (by exact_mod_cast hlt)]
      simp only [List.map_nil, List.not_mem_nil, false_iff]
      rintro ⟨vv, rfl, h1, h2, h3⟩
      omega
    · rw [aGo, if_neg (by exact_mod_cast not_lt.mpr hle)]
      by_cases heq : nn ≤ cc
      · have hccnn : cc = nn := le_antisymm hle heq
        rw [if_pos (by exact_mod_cast heq)]
        simp only [List.map_cons, List.map_nil, List.mem_cons, List.not_mem_nil, or_false]
        constructor
        · rintro rfl
          exact ⟨cc, rfl, le_rfl, hle, hch⟩
        · rintro ⟨vv, rfl, h1, h2, h3⟩
          have : vv = cc := by omega
          rw [this]
      · have hlt2 : cc < nn := by omega
        rw [if_neg (by exact_mod_cast heq)]
        have hcast : (↑nn : Int).fdiv ((↑nn : Int).fdiv (↑cc + 1)) = ↑(nn / (nn / (cc + 1))) := by
          rw [show ((↑cc : Int) + 1) = ↑(cc + 1) from by push_cast; ring,
            fdiv_natCast, fdiv_natCast]
        rw [hcast]
        have hd1 : 1 ≤ nn / (cc + 1) := Nat.div_pos (by omega) (by omega)
        have hd2 : nn / (cc + 1) ≤ nn := Nat.div_le_self nn (cc + 1)
        have h1 : cc + 1 ≤ nn / (nn / (cc + 1)) := next_cur_ge nn cc hc hlt2
        have hch' : nn / (nn / (nn / (nn / (cc + 1)))) = nn / (nn / (cc + 1)) := by
          rw [triple_div nn (cc + 1) (by omega) (by omega)]
        have IH := aGo_mem nn fuel (nn / (nn / (cc + 1))) (by omega) (by omega) hch'
        rw [List.map_cons, List.mem_cons, IH v]
        constructor
        · rintro (rfl | ⟨vv, rfl, hv1, hv2, hv3⟩)
          · exact ⟨cc, rfl, le_rfl, hle, hch⟩
          · exact ⟨vv, rfl, by omega, hv2, hv3⟩
        · rintro ⟨vv, rfl, hv1, hv2, hv3⟩
          rcases eq_or_lt_of_le hv1 with h | h
          · left
            rw [← h]
          · right
            refine ⟨vv, rfl, ?_, hv2, hv3⟩
            have hda : nn / vv ≤ nn / (cc + 1) := Nat.div_le_div_left (by omega) (by omega)
            have hv0 : 0 < nn / vv := Nat.div_pos hv2 (by omega)
            have hfin : nn / (nn / (cc + 1)) ≤ nn / (nn / vv) := Nat.div_le_div_left hda hv0
            rw [hv3] at hfin
            exact hfin

theorem mem_aL (S : GPUTileConfigSpace) (hN : 1 ≤ S.n) (v : Int) :
    v ∈ S.aL ↔ ∃ vv : Nat, v = ↑vv ∧ 1 ≤ vv ∧ vv ≤ S.n.toNat ∧
      S.n.toNat / (S.n.toNat / vv) = vv := by
  have hcast : S.n = ↑S.n.toNat := by omega
  have hrw : S.aL = (aGo (↑S.n.toNat) S.n.toNat ↑(1 : Nat)).map Prod.fst := by
    rw [GPUTileConfigSpace.aL, GPUTileConfigSpace.al, hcast]
    simp only [Int.toNat_natCast, Nat.cast_one]
  rw [hrw]
  exact aGo_mem S.n.toNat S.n.toNat 1 le_rfl (by omega)
    (by rw [Nat.div_one, Nat.div_self (by omega)]) v

theorem aL_budget_pos (S : GPUTileConfigSpace) (v : Int) (hv : v ∈ S.aL) : 1 ≤ S.n := by
  by_contra h
  push_neg at h
  have h0 : S.n.toNat = 0 := by omega
  rw [GPUTileConfigSpace.aL, GPUTileConfigSpace.al, h0] at hv
  simp [aGo] at hv

theorem aL_bounds (S : GPUTileConfigSpace) (v : Int) (hv : v ∈ S.aL) :
    1 ≤ v ∧ v ≤ S.n := by
  have hN := aL_budget_pos S v hv
  rw [mem_aL S hN] at hv
  obtain ⟨vv, rfl, h1, h2, _⟩ := hv
  omega

theorem n_mem_aL (S : GPUTileConfigSpace) (hN : 1 ≤ S.n) : S.n ∈ S.aL := by
  rw [mem_aL S hN]
  exact ⟨S.n.toNat, by omega, by omega, le_rfl,
    by rw [Nat.div_self (by omega), Nat.div_one]⟩

theorem aL_closed (S : GPUTileConfigSpace) (nb m : Int) (hn : nb ∈ S.aL)
    (hm : 1 ≤ m) (hq : 1 ≤ nb.fdiv m) : nb.fdiv m ∈ S.aL := by
  have hN := aL_budget_pos S nb hn
  rw [mem_aL S hN] at hn ⊢
  obtain ⟨vv, rfl, h1, h2, h3⟩ := hn
  obtain ⟨mm, rfl⟩ : ∃ mm : Nat, m = ↑mm := ⟨m.toNat, by omega⟩
  rw [fdiv_natCast] at hq ⊢
  have hmm : 1 ≤ mm := by exact_mod_cast hm
  have ht1 : 1 ≤ S.n.toNat / vv := Nat.div_pos h2 (by omega)
  have hdd : vv / mm = S.n.toNat / (S.n.toNat / vv * mm) := by
    conv_lhs => rw [← h3]
    rw [Nat.div_div_eq_div_mul]
  have hq2 : 1 ≤ vv / mm := by exact_mod_cast hq
  have htm : S.n.toNat / vv * mm ≤ S.n.toNat := by
    by_contra hcon
    push_neg at hcon
    rw [hdd, Nat.div_eq_of_lt hcon] at hq2
    omega
  refine ⟨vv / mm, rfl, hq2, le_trans (Nat.div_le_self vv mm) h2, ?_⟩
  rw [hdd]
  exact triple_div S.n.toNat (S.n.toNat / vv * mm) (Nat.mul_pos ht1 hmm) htm

end Pyvlova

namespace Pyvlova

theorem gsum_zero_fun (x : Int) : gsum (fun _ => (0 : Int)) x = 0 := by
  rcases le_or_lt x 0 with hx | hx
  · exact gsum_nonpos _ x hx
  · rw [gsum_const_block (fun _ => (0 : Int)) 0 0 x le_rfl (by omega) (fun j _ _ => rfl),
      gsum_nonpos _ 0 le_rfl]
    ring

theorem fSumGo_eq (h : Int → Int) (bd : Int) (nn : Nat) :
    ∀ (fuel cc : Nat), 1 ≤ cc → nn + 1 ≤ fuel + cc →
      GPUTileConfigSpace.fSumGo h bd ↑nn fuel ↑cc =
        gsum (fun i => h ((↑nn : Int).fdiv i)) (min bd ↑(nn / cc))
  | 0, cc, hc, hf => by
    have hcc : nn < cc := by omega
    rw [GPUTileConfigSpace.fSumGo, Nat.div_eq_of_lt hcc]
    rw [gsum_nonpos _ _ (by push_cast; omega)]
  | fuel + 1, cc, hc, hf => by
    have hcast1 : ((cc : Int) + 1) = ↑(cc + 1) := by push_cast; ring
    rcases lt_or_le nn cc with hlt | hle
    · rw [GPUTileConfigSpace.fSumGo, if_pos (by exact_mod_cast hlt), Nat.div_eq_of_lt hlt]
      rw [gsum_nonpos _ _ (by push_cast; omega)]
    · rw [GPUTileConfigSpace.fSumGo, if_neg (by exact_mod_cast not_lt.mpr hle)]
      have hr : (↑nn : Int).fdiv ↑cc = ↑(nn / cc) := fdiv_natCast nn cc
      have hl : (↑nn : Int).fdiv (↑cc + 1) = ↑(nn / (cc + 1)) := by
        rw [hcast1, fdiv_natCast]
      rcases le_or_lt nn cc with heq | hlt2
      · -- cur >= n: last iteration
        have hccnn : cc = nn := le_antisymm hle heq
        subst hccnn
        rw [if_pos (show ((cc : Int)) ≤ ↑cc from le_rfl)]
        rw [hr, hl, Nat.div_self (show 0 < cc from hc),
          Nat.div_eq_of_lt (Nat.lt_succ_self cc), Nat.cast_one, Nat.cast_zero]
        rcases le_or_lt 1 bd with hbd | hbd
        · have hm : min (1 : Int) bd = 1 := by omega
          have hm2 : min bd (1 : Int) = 1 := by omega
          rw [hm, hm2, if_pos (by omega)]
          rw [gsum_succ _ 1 le_rfl]
          have e11 : (1 : Int) - 1 = 0 := by ring
          rw [e11, gsum_nonpos _ 0 le_rfl, Int.fdiv_one]
          ring
        · have hm : min (1 : Int) bd = bd := by omega
          have hm2 : min bd (1 : Int) = bd := by omega
          rw [hm, hm2, if_neg (by omega), gsum_nonpos _ bd (by omega)]
          ring
      · -- cur < n: recursive step
        rw [if_neg (show ¬((nn : Int) ≤ ↑cc) from by exact_mod_cast not_le.mpr hlt2)]
        have hstep : (↑nn : Int).fdiv ((↑nn : Int).fdiv (↑cc + 1)) =
            ↑(nn / (nn / (cc + 1))) := by
          rw [hcast1, fdiv_natCast, fdiv_natCast]
        rw [hstep]
        have hd1 : 1 ≤ nn / (cc + 1) := Nat.div_pos (by omega) (by omega)
        have hnext : cc + 1 ≤ nn / (nn / (cc + 1)) := next_cur_ge nn cc hc hlt2
        rw [fSumGo_eq h bd nn fuel (nn / (nn / (cc + 1))) (by omega) (by omega)]
        rw [triple_div nn (cc + 1) (by omega) (by omega)]
        rw [hr, hl]
        have hA1 : 1 ≤ nn / cc := Nat.div_pos hle (by omega)
        have hdA : nn / (cc + 1) ≤ nn / cc :=
          Nat.div_le_div_left (by omega) (by omega)
        have hblock : ∀ j : Int, (↑(nn / (cc + 1)) : Int) < j → j ≤ ↑(nn / cc) →
            h ((↑nn : Int).fdiv j) = h ↑cc := by
          intro j hj1 hj2
          obtain ⟨jj, rfl⟩ : ∃ jj : Nat, j = ↑jj := ⟨j.toNat, by omega⟩
          rw [fdiv_natCast,
            div_block_eq nn cc jj (by exact_mod_cast hj1) (by exact_mod_cast hj2)]
        rcases le_or_lt (↑(nn / (cc + 1)) : Int) bd with hbd | hbd
        · have hm2 : min bd (↑(nn / (cc + 1)) : Int) = ↑(nn / (cc + 1)) := by omega
          rw [hm2]
          have hge : (↑(nn / (cc + 1)) : Int) ≤ min bd (↑(nn / cc) : Int) := by omega
          rw [gsum_const_block (fun i => h ((↑nn : Int).fdiv i)) (h ↑cc)
            (↑(nn / (cc + 1))) (min bd (↑(nn / cc) : Int)) (by omega) hge
            (fun j hj1 hj2 => hblock j hj1 (le_trans hj2 (min_le_right _ _)))]
          have hmc : min (↑(nn / cc) : Int) bd = min bd (↑(nn / cc) : Int) :=
            min_comm _ _
          rw [hmc]
          rcases le_or_lt 1 (min bd (↑(nn / cc) : Int) - ↑(nn / (cc + 1))) with hpos | hpos
          · rw [if_pos hpos]; ring
          · rw [if_neg (by omega)]
            have : min bd (↑(nn / cc) : Int) = ↑(nn / (cc + 1)) := by omega
            rw [this]
            ring
        · have hm2 : min bd (↑(nn / (cc + 1)) : Int) = bd := by omega
          have hm1 : min bd (↑(nn / cc) : Int) = bd := by omega
          have hc0 : min (↑(nn / cc) : Int) bd = bd := by omega
          rw [hm2, hm1, hc0, if_neg (by omega)]
          ring

theorem fbarN_eq_bfN (S : GPUTileConfigSpace) : ∀ (k : Nat) (n : Int), S.fbarN k n = S.bfN k n
  | 0, n => rfl
  | k + 1, n => by
    rw [GPUTileConfigSpace.fbarN, GPUTileConfigSpace.bfN]
    rcases le_or_lt n 0 with hn | hn
    · rw [if_pos hn, if_pos hn]
    · rw [if_neg (by omega), if_neg (by omega)]
      obtain ⟨nn, rfl⟩ : ∃ nn : Nat, n = ↑nn := ⟨n.toNat, by omega⟩
      have h1 : ((nn : Int)).toNat = nn := by omega
      rw [h1]
      rw [show (1 : Int) = ((1 : Nat) : Int) from rfl]
      rw [fSumGo_eq (S.fbarN k) (S.bi (k + 1)) nn nn 1 le_rfl (by omega)]
      rw [Nat.div_one]
      exact gsum_congr _ _ _ (fun j _ _ => by rw [fbarN_eq_bfN S k])

theorem fbar_eq_bf (S : GPUTileConfigSpace) (k n : Int) : S.fbar k n = S.bf k n := by
  rw [GPUTileConfigSpace.fbar, GPUTileConfigSpace.bf]
  rcases lt_or_le k 0 with hk | hk
  · rw [if_pos hk, if_pos hk]
  · rw [if_neg (by omega), if_neg (by omega), fbarN_eq_bfN]

theorem bfN_nonneg (S : GPUTileConfigSpace) :
    ∀ (k : Nat) (n : Int), (∀ j, j ≤ k → 0 ≤ S.bi j) → 0 ≤ S.bfN k n
  | 0, n, hb => by
    rw [GPUTileConfigSpace.bfN]
    have := hb 0 le_rfl
    split <;> omega
  | k + 1, n, hb => by
    rw [GPUTileConfigSpace.bfN]
    split
    · exact le_rfl
    · exact gsum_nonneg _ _ (fun j _ _ =>
        bfN_nonneg S k _ (fun j' hj' => hb j' (by omega)))

theorem bfN_pos (S : GPUTileConfigSpace) :
    ∀ (k : Nat) (n : Int), 1 ≤ n → (∀ j, j ≤ k → 1 ≤ S.bi j) → 1 ≤ S.bfN k n
  | 0, n, hn, hb => by
    rw [GPUTileConfigSpace.bfN, if_neg (by omega)]
    have := hb 0 le_rfl
    omega
  | k + 1, n, hn, hb => by
    rw [GPUTileConfigSpace.bfN, if_neg (by omega)]
    have hm : 1 ≤ min (S.bi (k + 1)) n := by
      have := hb (k + 1) le_rfl
      omega
    have h1 : gsum (fun i => S.bfN k (n.fdiv i)) 1 ≤
        gsum (fun i => S.bfN k (n.fdiv i)) (min (S.bi (k + 1)) n) :=
      gsum_mono _ 1 _ (by omega) hm (fun j hj1 hj2 =>
        bfN_nonneg S k _ (fun j' hj' => le_trans (by omega) (hb j' (by omega))))
    have h2 : gsum (fun i => S.bfN k (n.fdiv i)) 1 = S.bfN k n := by
      rw [gsum_succ _ 1 le_rfl]
      have e11 : (1 : Int) - 1 = 0 := by ring
      rw [e11, gsum_nonpos _ 0 le_rfl, Int.fdiv_one]
      ring
    have h3 := bfN_pos S k n hn (fun j' hj' => hb j' (by omega))
    omega

theorem bfN_zero_bound (S : GPUTileConfigSpace) :
    ∀ (k : Nat) (n : Int) (j : Nat), j ≤ k → S.bi j = 0 → S.bfN k n = 0
  | 0, n, j, hj, hbj => by
    have hj0 : j = 0 := by omega
    subst hj0
    rw [GPUTileConfigSpace.bfN, hbj]
    split <;> omega
  | k + 1, n, j, hj, hbj => by
    rw [GPUTileConfigSpace.bfN]
    split
    · rfl
    · rcases Nat.eq_or_lt_of_le hj with hje | hjlt
      · rw [← hje, hbj]
        rw [gsum_nonpos _ _ (by omega)]
      · rw [gsum_congr _ (fun _ => (0 : Int)) _
          (fun i _ _ => bfN_zero_bound S k _ j (by omega) hbj)]
        exact gsum_zero_fun _

end Pyvlova

namespace Pyvlova

theorem f_natCast (S : GPUTileConfigSpace) (m : Nat) (n : Int) : S.f ↑m n = S.bfN m n := by
  rw [GPUTileConfigSpace.f, GPUTileConfigSpace.fbar, if_neg (by omega : ¬((m : Int) < 0)),
    Int.toNat_natCast, fbarN_eq_bfN]

theorem q_pos (nn xx : Nat) (hn : 1 ≤ nn) (hx : 2 ≤ xx) : 1 ≤ nn / (nn / xx + 1) := by
  rcases Nat.lt_or_ge nn 2 with h | h
  · have h1 : nn = 1 := by omega
    subst h1
    rw [Nat.div_eq_of_lt (show 1 < xx by omega)]
  · have h1 : nn / xx ≤ nn / 2 := Nat.div_le_div_left hx (by omega)
    have h2 : nn / xx + 1 ≤ nn := by
      have h3 : nn / 2 + 1 ≤ nn := by omega
      exact le_trans (Nat.add_le_add_right h1 1) h3
    exact Nat.div_pos h2 (Nat.succ_pos (nn / xx))

theorem q_lt (nn xx : Nat) (hx : 1 ≤ xx) : nn / (nn / xx + 1) < xx := by
  rw [Nat.div_lt_iff_lt_mul (Nat.succ_pos (nn / xx))]
  have h1 := Nat.div_add_mod nn xx
  have hm : nn % xx < xx := Nat.mod_lt nn (by omega)
  nlinarith

theorem g_block_eq (nn xx jj : Nat) (hj1 : nn / (nn / xx + 1) < jj) (hj2 : jj ≤ xx) :
    nn / jj = nn / xx := by
  rcases Nat.eq_zero_or_pos (nn / xx) with hm | hm
  · rw [hm] at hj1 ⊢
    rw [Nat.div_one] at hj1
    exact Nat.div_eq_of_lt hj1
  · have hxm : xx ≤ nn / (nn / xx) := by
      rw [Nat.le_div_iff_mul_le hm]
      calc xx * (nn / xx) = nn / xx * xx := Nat.mul_comm _ _
      _ ≤ nn := Nat.div_mul_le_self nn xx
    exact Eq.trans (div_block_eq nn (nn / xx) jj hj1 (le_trans hj2 hxm)) rfl

theorem gm_posdim (S : GPUTileConfigSpace) (i : Nat) (hi : 1 ≤ i) (n x : Int) (hx : 1 ≤ x) :
    S.gm i n x = gsum (fun j => S.bfN (i - 1) (n.fdiv j)) x := by
  rw [GPUTileConfigSpace.gm, if_neg (by omega), if_neg (by omega)]

theorem gm_zerodim (S : GPUTileConfigSpace) (n x : Int) (hx : 1 ≤ x) :
    S.gm 0 n x = min n (min (S.bi 0) x) := by
  rw [GPUTileConfigSpace.gm, if_neg (by omega), if_pos rfl]

theorem gm_nonposarg (S : GPUTileConfigSpace) (i : Nat) (n x : Int) (hx : x ≤ 0) :
    S.gm i n x = 0 := by
  rw [GPUTileConfigSpace.gm, if_pos hx]

theorem gGo_ok (S : GPUTileConfigSpace) (i : Nat) (hidim : i < S.dim) :
    ∀ (fuel : Nat) (n x : Int), n ∈ S.aL → x.toNat < fuel →
      S.gGo fuel ↑i n x = .ok (S.gm i n x)
  | 0, n, x, hn, hfuel => absurd hfuel (by omega)
  | fuel + 1, n, x, hn, hfuel => by
    obtain ⟨hn1, hn2⟩ := aL_bounds S n hn
    rw [GPUTileConfigSpace.gGo, if_pos hn]
    rcases le_or_lt x 0 with hx0 | hx0
    · rw [if_pos (Or.inr (Or.inr hx0)), gm_nonposarg S i n x hx0]
    · rw [if_neg (by push_neg; exact ⟨by omega, by omega, by omega⟩)]
      rcases Nat.eq_zero_or_pos i with hi0 | hi1
      · subst hi0
        rw [if_pos (by norm_num : ((0 : Nat) : Int) ≤ 0), gm_zerodim S n x (by omega)]
      · rw [if_neg (by exact_mod_cast (by omega : ¬ i ≤ 0))]
        rcases le_or_lt x 1 with hx1 | hx1
        · have hxx : x = 1 := by omega
          subst hxx
          rw [if_pos le_rfl, gm_posdim S i hi1 n 1 le_rfl]
          rw [gsum_succ _ 1 le_rfl]
          have e11 : (1 : Int) - 1 = 0 := by ring
          rw [e11, gsum_nonpos _ 0 le_rfl, Int.fdiv_one]
          have hcast : ((i : Int)) - 1 = ↑(i - 1) := by omega
          rw [hcast, f_natCast, zero_add]
        · rw [if_neg (by omega), if_neg (by exact_mod_cast (by omega : ¬ S.dim ≤ i))]
          obtain ⟨nn2, rfl⟩ : ∃ m : Nat, n = ↑m := ⟨n.toNat, by omega⟩
          obtain ⟨xx, rfl⟩ : ∃ m : Nat, x = ↑m := ⟨x.toNat, by omega⟩
          have hnn1 : 1 ≤ nn2 := by exact_mod_cast hn1
          have hxx2 : 2 ≤ xx := by exact_mod_cast hx1
          have hqcast : (↑nn2 : Int).fdiv ((↑nn2 : Int).fdiv ↑xx + 1) =
              ↑(nn2 / (nn2 / xx + 1)) := by
            rw [fdiv_natCast,
              show ((↑(nn2 / xx) : Int) + 1) = ↑(nn2 / xx + 1) from by push_cast; ring,
              fdiv_natCast]
          rw [hqcast]
          have hq1 : 1 ≤ nn2 / (nn2 / xx + 1) := q_pos nn2 xx hnn1 hxx2
          have hqlt : nn2 / (nn2 / xx + 1) < xx := q_lt nn2 xx (by omega)
          have hqmem : (↑(nn2 / (nn2 / xx + 1)) : Int) ∈ S.aL := by
            have hcl := aL_closed S ↑nn2 ↑(nn2 / xx + 1) hn
              (by exact_mod_cast Nat.succ_le_succ (Nat.zero_le (nn2 / xx)))
              (by rw [fdiv_natCast]; exact_mod_cast hq1)
            rw [fdiv_natCast] at hcl
            exact hcl
          rw [if_pos hqmem]
          have hxf : xx < fuel + 1 := by
            have := hfuel
            rw [Int.toNat_natCast] at this
            omega
          rw [gGo_ok S i hidim fuel ↑nn2 ↑(nn2 / (nn2 / xx + 1)) hn
            (by rw [Int.toNat_natCast]; exact Nat.lt_of_lt_of_le hqlt (by omega))]
          have hmapok : ∀ (v : Int) (fn : Int → Int),
              Except.map fn (Except.ok v : Except String Int) = Except.ok (fn v) :=
            fun v fn => rfl
          rw [hmapok]
          have hcast : ((i : Int)) - 1 = ↑(i - 1) := by omega
          rw [hcast, fdiv_natCast, f_natCast]
          rw [gm_posdim S i hi1 ↑nn2 ↑xx (by omega),
            gm_posdim S i hi1 ↑nn2 ↑(nn2 / (nn2 / xx + 1)) (by exact_mod_cast hq1)]
          have hblock : ∀ j : Int, (↑(nn2 / (nn2 / xx + 1)) : Int) < j → j ≤ ↑xx →
              S.bfN (i - 1) ((↑nn2 : Int).fdiv j) = S.bfN (i - 1) ↑(nn2 / xx) := by
            intro j hj1 hj2
            obtain ⟨jj, rfl⟩ : ∃ m : Nat, j = ↑m := ⟨j.toNat, by omega⟩
            rw [fdiv_natCast,
              g_block_eq nn2 xx jj (by exact_mod_cast hj1) (by exact_mod_cast hj2)]
          rw [gsum_const_block (fun j => S.bfN (i - 1) ((↑nn2 : Int).fdiv j))
            (S.bfN (i - 1) ↑(nn2 / xx)) (↑(nn2 / (nn2 / xx + 1))) ↑xx (by omega)
            (by exact_mod_cast le_of_lt hqlt) hblock]

theorem g_ok (S : GPUTileConfigSpace) (i : Nat) (hidim : i < S.dim) (n x : Int)
    (hn : n ∈ S.aL) : S.g ↑i n x = .ok (S.gm i n x) :=
  gGo_ok S i hidim (x.toNat + 1) n x hn (by omega)

end Pyvlova

namespace Pyvlova

theorem bind_ok {α β : Type} (v : α) (k : α → Except String β) :
    ((Except.ok v : Except String α) >>= k) = k v := rfl

theorem cnt_nonneg (S : GPUTileConfigSpace) (d : Nat) (n : Int)
    (hb : ∀ j, j < d → 0 ≤ S.bi j) : 0 ≤ S.cnt d n := by
  cases d with
  | zero => norm_num [GPUTileConfigSpace.cnt]
  | succ d => exact bfN_nonneg S d n (fun j hj => hb j (by omega))

theorem cnt_pos (S : GPUTileConfigSpace) (d : Nat) (n : Int) (hn : 1 ≤ n)
    (hb : ∀ j, j < d → 1 ≤ S.bi j) : 1 ≤ S.cnt d n := by
  cases d with
  | zero => norm_num [GPUTileConfigSpace.cnt]
  | succ d => exact bfN_pos S d n hn (fun j hj => hb j (by omega))

theorem gm_nonneg (S : GPUTileConfigSpace) (i : Nat) (n x : Int) (hn : 1 ≤ n)
    (hb : ∀ j, j ≤ i → 1 ≤ S.bi j) : 0 ≤ S.gm i n x := by
  rcases le_or_lt x 0 with hx | hx
  · rw [gm_nonposarg S i n x hx]
  · rcases Nat.eq_zero_or_pos i with hi | hi
    · subst hi
      rw [gm_zerodim S n x (by omega)]
      have := hb 0 le_rfl
      omega
    · rw [gm_posdim S i hi n x (by omega)]
      exact gsum_nonneg _ _ (fun j hj1 hj2 =>
        bfN_nonneg S (i - 1) _ (fun j' hj' => le_trans (by omega) (hb j' (by omega))))

theorem gm_mono (S : GPUTileConfigSpace) (i : Nat) (n a b : Int) (hn : 1 ≤ n)
    (hb : ∀ j, j ≤ i → 1 ≤ S.bi j) (hab : a ≤ b) : S.gm i n a ≤ S.gm i n b := by
  rcases le_or_lt b 0 with hb0 | hb0
  · rw [gm_nonposarg S i n a (by omega), gm_nonposarg S i n b hb0]
  · rcases le_or_lt a 0 with ha0 | ha0
    · rw [gm_nonposarg S i n a ha0]
      exact gm_nonneg S i n b hn hb
    · rcases Nat.eq_zero_or_pos i with hi | hi
      · subst hi
        rw [gm_zerodim S n a (by omega), gm_zerodim S n b (by omega)]
        omega
      · rw [gm_posdim S i hi n a (by omega), gm_posdim S i hi n b (by omega)]
        exact gsum_mono _ a b (by omega) hab (fun j hj1 hj2 =>
          bfN_nonneg S (i - 1) _ (fun j' hj' => le_trans (by omega) (hb j' (by omega))))

theorem gm_diff (S : GPUTileConfigSpace) (i : Nat) (n x : Int) (hn : 1 ≤ n)
    (hx1 : 1 ≤ x) (hx2 : x ≤ min (S.bi i) n) :
    S.gm i n x = S.gm i n (x - 1) + S.cnt i (n.fdiv x) := by
  cases i with
  | zero =>
    rw [show S.cnt 0 (n.fdiv x) = 1 from rfl]
    rcases le_or_lt x 1 with hx | hx
    · have hxx : x = 1 := by omega
      subst hxx
      rw [gm_zerodim S n 1 le_rfl, gm_nonposarg S 0 n (1 - 1) (by omega)]
      omega
    · rw [gm_zerodim S n x (by omega), gm_zerodim S n (x - 1) (by omega)]
      omega
  | succ i' =>
    rw [show S.cnt (i' + 1) (n.fdiv x) = S.bfN i' (n.fdiv x) from rfl]
    rw [gm_posdim S (i' + 1) (by omega) n x (by omega)]
    rw [gsum_succ _ x hx1]
    rcases le_or_lt x 1 with hx | hx
    · have hxx : x = 1 := by omega
      subst hxx
      rw [gm_nonposarg S (i' + 1) n (1 - 1) (by omega)]
      have e11 : (1 : Int) - 1 = 0 := by ring
      rw [e11, gsum_nonpos _ 0 le_rfl]
      norm_num
    · rw [gm_posdim S (i' + 1) (by omega) n (x - 1) (by omega)]
      norm_num

theorem gm_top (S : GPUTileConfigSpace) (i : Nat) (n : Int) (hn : 1 ≤ n)
    (hbi : 1 ≤ S.bi i) :
    S.gm i n (min (S.bi i) n) = S.cnt (i + 1) n := by
  have hm1 : 1 ≤ min (S.bi i) n := by omega
  cases i with
  | zero =>
    rw [gm_zerodim S n _ hm1,
      show S.cnt 1 n = S.bfN 0 n from rfl, GPUTileConfigSpace.bfN, if_neg (by omega)]
    omega
  | succ i' =>
    rw [gm_posdim S (i' + 1) (by omega) n _ hm1,
      show S.cnt (i' + 1 + 1) n = S.bfN (i' + 1) n from rfl,
      GPUTileConfigSpace.bfN, if_neg (by omega)]
    norm_num

theorem gm_locate_unique (S : GPUTileConfigSpace) (i : Nat) (n c x L : Int)
    (hn : 1 ≤ n) (hb : ∀ j, j ≤ i → 1 ≤ S.bi j)
    (hx1 : S.gm i n (x - 1) ≤ c) (hx2 : c < S.gm i n x)
    (hL1 : S.gm i n (L - 1) ≤ c) (hL2 : c < S.gm i n L) : x = L := by
  rcases lt_trichotomy x L with h | h | h
  · have := gm_mono S i n x (L - 1) hn hb (by omega)
    omega
  · exact h
  · have := gm_mono S i n L (x - 1) hn hb (by omega)
    omega

theorem fdiv_pos_of_le (n l : Int) (hl : 1 ≤ l) (hn : l ≤ n) : 1 ≤ n.fdiv l := by
  rw [fdiv_toNat n l (by omega) (by omega)]
  have h1 : 1 ≤ n.toNat / l.toNat := Nat.div_pos (by omega) (by omega)
  exact_mod_cast h1

theorem fdiv_le_self_of_pos (n l : Int) (hl : 1 ≤ l) (hn : 0 ≤ n) : n.fdiv l ≤ n := by
  rw [fdiv_toNat n l hn (by omega)]
  have h1 : n.toNat / l.toNat ≤ n.toNat := Nat.div_le_self _ _
  omega

theorem bsGo_spec (S : GPUTileConfigSpace) (i : Nat) (hidim : i < S.dim) (n c : Int)
    (hn : n ∈ S.aL) :
    ∀ (fuel : Nat) (l r : Int), 1 ≤ l → l < r → (r - l).toNat ≤ fuel + 1 →
      S.gm i n (l - 1) ≤ c → c < S.gm i n (r - 1) →
      ∃ L, S.bsGo i n c fuel l r = .ok L ∧ l ≤ L ∧ L < r ∧
        S.gm i n (L - 1) ≤ c ∧ c < S.gm i n L
  | 0, l, r, hl, hlr, hfuel, hgl, hgr => by
    have hr1 : r = l + 1 := by omega
    subst hr1
    rw [show l + 1 - 1 = l from by ring] at hgr
    exact ⟨l, rfl, le_rfl, by omega, hgl, hgr⟩
  | fuel + 1, l, r, hl, hlr, hfuel, hgl, hgr => by
    rw [GPUTileConfigSpace.bsGo]
    rcases le_or_lt (r - l) 1 with hrl | hrl
    · rw [if_pos hrl]
      have hr1 : r = l + 1 := by omega
      subst hr1
      rw [show l + 1 - 1 = l from by ring] at hgr
      exact ⟨l, rfl, le_rfl, by omega, hgl, hgr⟩
    · rw [if_neg (by omega)]
      have hmid : l < (l + r).fdiv 2 ∧ (l + r).fdiv 2 < r := by
        rw [Int.fdiv_eq_ediv _ (by norm_num)]
        omega
      rw [g_ok S i hidim n ((l + r).fdiv 2 - 1) hn, bind_ok]
      rcases le_or_lt (S.gm i n ((l + r).fdiv 2 - 1)) c with hgm | hgm
      · rw [if_pos hgm]
        obtain ⟨L, heq, h1, h2, h3, h4⟩ := bsGo_spec S i hidim n c hn fuel
          ((l + r).fdiv 2) r (by omega) (by omega) (by omega) hgm hgr
        exact ⟨L, heq, by omega, h2, h3, h4⟩
      · rw [if_neg (by omega)]
        obtain ⟨L, heq, h1, h2, h3, h4⟩ := bsGo_spec S i hidim n c hn fuel
          l ((l + r).fdiv 2) hl (by omega) (by omega) hgl hgm
        exact ⟨L, heq, h1, by omega, h3, h4⟩

end Pyvlova

namespace Pyvlova

theorem getD_append_self (xs : List Int) (a : Int) :
    (xs ++ [a]).getD xs.length 0 = a := by
  simp [List.getD_append_right, Nat.le_refl]

theorem getD_append_lt (xs : List Int) (a : Int) (j : Nat) (hj : j < xs.length) :
    (xs ++ [a]).getD j 0 = xs.getD j 0 := by
  simp [List.getD, List.getElem?_append_left hj]

theorem getD_lt_length (t : List Int) (d : Nat) (h : 1 ≤ t.getD d 0) : d < t.length := by
  by_contra hcon
  push_neg at hcon
  rw [List.getD_eq_default _ _ hcon] at h
  omega

theorem take_succ_getD (t : List Int) (d : Nat) (hd : d < t.length) :
    t.take (d + 1) = t.take d ++ [t.getD d 0] := by
  rw [List.take_succ]
  simp [List.getD, List.getElem?_eq_getElem hd]

theorem nestB_ext (S : GPUTileConfigSpace) :
    ∀ (d : Nat) (n : Int) (t t' : List Int),
      (∀ j, j < d → t.getD j 0 = t'.getD j 0) → S.nestB d n t = S.nestB d n t'
  | 0, n, t, t', _ => rfl
  | d + 1, n, t, t', he => by
    rw [GPUTileConfigSpace.nestB, GPUTileConfigSpace.nestB,
      he d (by omega), nestB_ext S d (n.fdiv (t'.getD d 0)) t t'
        (fun j hj => he j (by omega))]

theorem rankGo_ext (S : GPUTileConfigSpace) :
    ∀ (d : Nat) (n : Int) (t t' : List Int),
      (∀ j, j < d → t.getD j 0 = t'.getD j 0) → S.rankGo t d n = S.rankGo t' d n
  | 0, n, t, t', _ => rfl
  | d + 1, n, t, t', he => by
    rw [GPUTileConfigSpace.rankGo, GPUTileConfigSpace.rankGo,
      he d (by omega), rankGo_ext S d (n.fdiv (t'.getD d 0)) t t'
        (fun j hj => he j (by omega))]

theorem revGo_spec (S : GPUTileConfigSpace) (hb : ∀ j, j < S.dim → 1 ≤ S.bi j) :
    ∀ (d : Nat), d ≤ S.dim → ∀ (n c : Int), n ∈ S.aL → 0 ≤ c → c < S.cnt d n →
      ∃ t, S.revGo d n c = .ok t ∧ t.length = d ∧ S.nestB d n t = true ∧
        S.rankGo t d n = .ok c
  | 0, hd, n, c, hn, hc0, hc1 => by
    have hcnt : S.cnt 0 n = 1 := rfl
    have hc : c = 0 := by omega
    subst hc
    exact ⟨[], rfl, rfl, rfl, rfl⟩
  | d + 1, hd, n, c, hn, hc0, hc1 => by
    obtain ⟨hn1, hn2⟩ := aL_bounds S n hn
    have hbd : 1 ≤ S.bi d := hb d (by omega)
    have hmc : min n (S.bi d) = min (S.bi d) n := min_comm _ _
    have htop : S.gm d n (min (S.bi d) n) = S.cnt (d + 1) n :=
      gm_top S d n hn1 hbd
    obtain ⟨L, hbseq, hL1, hL2, hgL1, hgL2⟩ :=
      bsGo_spec S d (by omega) n c hn (min n (S.bi d)).toNat 1 (min n (S.bi d) + 1)
        le_rfl (by omega) (by omega)
        (by rw [show (1 : Int) - 1 = 0 from by ring, gm_nonposarg S d n 0 le_rfl]; exact hc0)
        (by rw [show min n (S.bi d) + 1 - 1 = min n (S.bi d) from by ring, hmc, htop]
            exact hc1)
    have hLhi : L ≤ min (S.bi d) n := by omega
    have hdiff : S.gm d n L = S.gm d n (L - 1) + S.cnt d (n.fdiv L) :=
      gm_diff S d n L hn1 hL1 hLhi
    have hq1 : 1 ≤ n.fdiv L := fdiv_pos_of_le n L hL1 (by omega)
    have hqmem : n.fdiv L ∈ S.aL := aL_closed S n L hn hL1 hq1
    obtain ⟨rest, hreq, hrlen, hrnest, hrrank⟩ :=
      revGo_spec S hb d (by omega) (n.fdiv L) (c - S.gm d n (L - 1)) hqmem
        (by omega) (by omega)
    refine ⟨rest ++ [L], ?_, ?_, ?_, ?_⟩
    · rw [GPUTileConfigSpace.revGo, hbseq, bind_ok,
        g_ok S d (by omega) n (L - 1) hn, bind_ok, hreq, bind_ok]
      rfl
    · simp [hrlen]
    · rw [GPUTileConfigSpace.nestB]
      have hgd : (rest ++ [L]).getD d 0 = L := by
        rw [← hrlen]
        exact getD_append_self rest L
      rw [hgd]
      rw [nestB_ext S d (n.fdiv L) (rest ++ [L]) rest
        (fun j hj => by rw [← hrlen] at hj; exact getD_append_lt rest L j hj)]
      rw [hrnest]
      simp only [Bool.and_true, decide_eq_true_eq]
      exact ⟨hL1, by omega⟩
    · rw [GPUTileConfigSpace.rankGo]
      have hgd : (rest ++ [L]).getD d 0 = L := by
        rw [← hrlen]
        exact getD_append_self rest L
      rw [hgd, g_ok S d (by omega) n (L - 1) hn, bind_ok, if_neg (by omega),
        rankGo_ext S d (n.fdiv L) (rest ++ [L]) rest
          (fun j hj => by rw [← hrlen] at hj; exact getD_append_lt rest L j hj),
        hrrank, bind_ok]
      congr 1
      ring

theorem rankGo_spec (S : GPUTileConfigSpace) (hb : ∀ j, j < S.dim → 1 ≤ S.bi j) :
    ∀ (d : Nat), d ≤ S.dim → ∀ (n : Int) (t : List Int), n ∈ S.aL →
      S.nestB d n t = true →
      ∃ c, S.rankGo t d n = .ok c ∧ 0 ≤ c ∧ c < S.cnt d n ∧
        S.revGo d n c = .ok (t.take d)
  | 0, hd, n, t, hn, hnest => by
    have hcnt : (0 : Int) < S.cnt 0 n := by norm_num [GPUTileConfigSpace.cnt]
    have hrev : S.revGo 0 n 0 = .ok (t.take 0) := by rw [List.take_zero]; rfl
    exact ⟨0, rfl, le_rfl, hcnt, hrev⟩
  | d + 1, hd, n, t, hn, hnest => by
    obtain ⟨hn1, hn2⟩ := aL_bounds S n hn
    have hbd : 1 ≤ S.bi d := hb d (by omega)
    rw [GPUTileConfigSpace.nestB, Bool.and_eq_true, decide_eq_true_eq] at hnest
    obtain ⟨⟨hx1, hx2⟩, hnest2⟩ := hnest
    have hq1 : 1 ≤ n.fdiv (t.getD d 0) := fdiv_pos_of_le n _ hx1 (by omega)
    have hqmem : n.fdiv (t.getD d 0) ∈ S.aL := aL_closed S n _ hn hx1 hq1
    obtain ⟨c', hc'eq, hc'0, hc'1, hc'rev⟩ :=
      rankGo_spec S hb d (by omega) (n.fdiv (t.getD d 0)) t hqmem hnest2
    have hgmx : S.gm d n (t.getD d 0) =
        S.gm d n (t.getD d 0 - 1) + S.cnt d (n.fdiv (t.getD d 0)) :=
      gm_diff S d n _ hn1 hx1 hx2
    have hbj : ∀ j, j ≤ d → 1 ≤ S.bi j := fun j hj => hb j (by omega)
    have hgmono : S.gm d n (t.getD d 0) ≤ S.gm d n (min (S.bi d) n) :=
      gm_mono S d n _ _ hn1 hbj (by omega)
    have htop : S.gm d n (min (S.bi d) n) = S.cnt (d + 1) n :=
      gm_top S d n hn1 hbd
    have hge0 : 0 ≤ S.gm d n (t.getD d 0 - 1) :=
      gm_nonneg S d n _ hn1 hbj
    refine ⟨S.gm d n (t.getD d 0 - 1) + c', ?_, by omega, by omega, ?_⟩
    · rw [GPUTileConfigSpace.rankGo, g_ok S d (by omega) n _ hn, bind_ok,
        if_neg (by omega), hc'eq, bind_ok]
      rfl
    · rw [GPUTileConfigSpace.revGo]
      have hmc : min n (S.bi d) = min (S.bi d) n := min_comm _ _
      obtain ⟨L, hbseq, hL1, hL2, hgL1, hgL2⟩ :=
        bsGo_spec S d (by omega) n (S.gm d n (t.getD d 0 - 1) + c') hn
          (min n (S.bi d)).toNat 1 (min n (S.bi d) + 1)
          le_rfl (by omega) (by omega)
          (by rw [show (1 : Int) - 1 = 0 from by ring, gm_nonposarg S d n 0 le_rfl]; omega)
          (by rw [show min n (S.bi d) + 1 - 1 = min n (S.bi d) from by ring, hmc, htop]
              omega)
      have hLx : t.getD d 0 = L :=
        gm_locate_unique S d n (S.gm d n (t.getD d 0 - 1) + c') (t.getD d 0) L hn1 hbj
          (by omega) (by omega) hgL1 hgL2
      rw [hbseq, bind_ok, g_ok S d (by omega) n (L - 1) hn, bind_ok, ← hLx]
      have harg : S.gm d n (t.getD d 0 - 1) + c' - S.gm d n (t.getD d 0 - 1) = c' := by
        ring
      rw [harg, hc'rev, bind_ok]
      have hdlen : d < t.length := getD_lt_length t d hx1
      rw [take_succ_getD t d hdlen]
      rfl
  
end Pyvlova

namespace Pyvlova

theorem bfN_nonpos (S : GPUTileConfigSpace) (k : Nat) (n : Int) (hn : n ≤ 0) :
    S.bfN k n = 0 := by
  cases k with
  | zero => rw [GPUTileConfigSpace.bfN, if_pos hn]
  | succ k => rw [GPUTileConfigSpace.bfN, if_pos hn]

theorem size_eq_cnt (S : GPUTileConfigSpace) (hd : 1 ≤ S.dim) :
    S.size = S.cnt S.dim S.n := by
  obtain ⟨d0, hd0⟩ : ∃ d0, S.dim = d0 + 1 := ⟨S.dim - 1, by omega⟩
  rw [GPUTileConfigSpace.size, hd0,
    show ((d0 + 1 : Nat) : Int) - 1 = ↑d0 from by push_cast; ring, f_natCast]
  rfl

theorem bsGo_total (S : GPUTileConfigSpace) (i : Nat) (hidim : i < S.dim) (n c : Int)
    (hn : n ∈ S.aL) :
    ∀ (fuel : Nat) (l r : Int), 1 ≤ l → l ≤ n → r ≤ n + 1 →
      ∃ L, S.bsGo i n c fuel l r = .ok L ∧ 1 ≤ L ∧ L ≤ n
  | 0, l, r, hl, hln, hr => ⟨l, rfl, hl, hln⟩
  | fuel + 1, l, r, hl, hln, hr => by
    rw [GPUTileConfigSpace.bsGo]
    rcases le_or_lt (r - l) 1 with hrl | hrl
    · rw [if_pos hrl]
      exact ⟨l, rfl, hl, hln⟩
    · rw [if_neg (by omega)]
      rw [g_ok S i hidim n ((l + r).fdiv 2 - 1) hn, bind_ok]
      have hmid : l < (l + r).fdiv 2 ∧ (l + r).fdiv 2 < r := by
        rw [Int.fdiv_eq_ediv _ (by norm_num)]
        omega
      rcases le_or_lt (S.gm i n ((l + r).fdiv 2 - 1)) c with hgm | hgm
      · rw [if_pos hgm]
        exact bsGo_total S i hidim n c hn fuel ((l + r).fdiv 2) r
          (by omega) (by omega) hr
      · rw [if_neg (by omega)]
        exact bsGo_total S i hidim n c hn fuel l ((l + r).fdiv 2) hl hln (by omega)

theorem revGo_total (S : GPUTileConfigSpace) :
    ∀ (d : Nat), d ≤ S.dim → ∀ (n c : Int), n ∈ S.aL →
      ∃ t, S.revGo d n c = .ok t
  | 0, _, n, c, _ => ⟨[], rfl⟩
  | d + 1, hd, n, c, hn => by
    obtain ⟨hn1, hn2⟩ := aL_bounds S n hn
    obtain ⟨L, hbseq, hL1, hLn⟩ := bsGo_total S d (by omega) n c hn
      (min n (S.bi d)).toNat 1 (min n (S.bi d) + 1) le_rfl hn1 (by omega)
    have hq1 : 1 ≤ n.fdiv L := fdiv_pos_of_le n L hL1 hLn
    have hqmem : n.fdiv L ∈ S.aL := aL_closed S n L hn hL1 hq1
    obtain ⟨rest, hreq⟩ :=
      revGo_total S d (by omega) (n.fdiv L) (c - S.gm d n (L - 1)) hqmem
    refine ⟨rest ++ [L], ?_⟩
    rw [GPUTileConfigSpace.revGo, hbseq, bind_ok, g_ok S d (by omega) n (L - 1) hn,
      bind_ok, hreq, bind_ok]
    rfl

theorem rankGo_total (S : GPUTileConfigSpace) :
    ∀ (d : Nat), d ≤ S.dim → ∀ (n : Int) (t : List Int), n ∈ S.aL →
      S.nestB d n t = true → ∃ c, S.rankGo t d n = .ok c
  | 0, _, n, t, _, _ => ⟨0, rfl⟩
  | d + 1, hd, n, t, hn, hnest => by
    obtain ⟨hn1, hn2⟩ := aL_bounds S n hn
    rw [GPUTileConfigSpace.nestB, Bool.and_eq_true, decide_eq_true_eq] at hnest
    obtain ⟨⟨hx1, hx2⟩, hnest2⟩ := hnest
    have hq1 : 1 ≤ n.fdiv (t.getD d 0) := fdiv_pos_of_le n _ hx1 (by omega)
    have hqmem : n.fdiv (t.getD d 0) ∈ S.aL := aL_closed S n _ hn hx1 hq1
    obtain ⟨c2, hc2⟩ := rankGo_total S d (by omega) (n.fdiv (t.getD d 0)) t hqmem hnest2
    refine ⟨S.gm d n (t.getD d 0 - 1) + c2, ?_⟩
    rw [GPUTileConfigSpace.rankGo, g_ok S d (by omega) n _ hn, bind_ok,
      if_neg (by omega), hc2, bind_ok]
    rfl

end Pyvlova

namespace Pyvlova

theorem aGo_lb (nn : Nat) :
    ∀ (fuel cc : Nat), 1 ≤ cc →
      ∀ v ∈ (aGo ↑nn fuel ↑cc).map Prod.fst, (↑cc : Int) ≤ v
  | 0, cc, hc, v, hv => by simp [aGo] at hv
  | fuel + 1, cc, hc, v, hv => by
    rw [aGo] at hv
    split at hv
    · simp at hv
    · rw [List.map_cons, List.mem_cons] at hv
      rcases hv with rfl | hv
    
      · exact le_rfl
      · split at hv
        · simp at hv
        · rename_i hq1 hq2
          have hle : cc ≤ nn := by exact_mod_cast not_lt.mp hq1
          have hlt2 : cc < nn := by
            rcases lt_or_le cc nn with h | h
            · exact h
            · exfalso
              exact hq2 (by exact_mod_cast h)
          have hcast : (↑nn : Int).fdiv ((↑nn : Int).fdiv (↑cc + 1)) =
              ↑(nn / (nn / (cc + 1))) := by
            rw [show ((↑cc : Int) + 1) = ↑(cc + 1) from by push_cast; ring,
              fdiv_natCast, fdiv_natCast]
          rw [hcast] at hv
          have h1 : cc + 1 ≤ nn / (nn / (cc + 1)) := next_cur_ge nn cc hc hlt2
          have h2 := aGo_lb nn fuel (nn / (nn / (cc + 1))) (by omega) v hv
          have h3 : ((cc : Int)) + 1 ≤ ↑(nn / (nn / (cc + 1))) := by exact_mod_cast h1
          omega

theorem aGo_sorted (nn : Nat) :
    ∀ (fuel cc : Nat), 1 ≤ cc →
      List.Sorted (· < ·) ((aGo ↑nn fuel ↑cc).map Prod.fst)
  | 0, cc, hc => by simp [aGo]
  | fuel + 1, cc, hc => by
    rw [aGo]
    split
    · simp
    · rw [List.map_cons, List.sorted_cons]
      constructor
      · intro v hv
        split at hv
        · simp at hv
        · rename_i hq1 hq2
          have hlt2 : cc < nn := by
            rcases lt_or_le cc nn with h | h
            · exact h
            · exact absurd (by exact_mod_cast h : (↑nn : Int) ≤ ↑cc) hq2
          have hcast : (↑nn : Int).fdiv ((↑nn : Int).fdiv (↑cc + 1)) =
              ↑(nn / (nn / (cc + 1))) := by
            rw [show ((↑cc : Int) + 1) = ↑(cc + 1) from by push_cast; ring,
              fdiv_natCast, fdiv_natCast]
          rw [hcast] at hv
          have h1 : cc + 1 ≤ nn / (nn / (cc + 1)) := next_cur_ge nn cc hc hlt2
          have h2 := aGo_lb nn fuel (nn / (nn / (cc + 1))) (by omega) v hv
          have h3 : ((cc : Int)) + 1 ≤ ↑(nn / (nn / (cc + 1))) := by exact_mod_cast h1
          omega
      · split
        · simp
        · rename_i hq1 hq2
          have hlt2 : cc < nn := by
            rcases lt_or_le cc nn with h | h
            · exact h
            · exact absurd (by exact_mod_cast h : (↑nn : Int) ≤ ↑cc) hq2
          have hcast : (↑nn : Int).fdiv ((↑nn : Int).fdiv (↑cc + 1)) =
              ↑(nn / (nn / (cc + 1))) := by
            rw [show ((↑cc : Int) + 1) = ↑(cc + 1) from by push_cast; ring,
              fdiv_natCast, fdiv_natCast]
          rw [hcast]
          have h1 : cc + 1 ≤ nn / (nn / (cc + 1)) := next_cur_ge nn cc hc hlt2
          exact aGo_sorted nn fuel (nn / (nn / (cc + 1))) (by omega)

theorem char_iff (nn vv : Nat) :
    (1 ≤ vv ∧ vv ≤ nn ∧ nn / (nn / vv) = vv) ↔
      ∃ i : Nat, 1 ≤ i ∧ i ≤ nn ∧ nn / i = vv := by
  constructor
  · rintro ⟨h1, h2, h3⟩
    exact ⟨nn / vv, Nat.div_pos h2 (by omega), Nat.div_le_self nn vv, h3⟩
  · rintro ⟨i, hi1, hi2, rfl⟩
    exact ⟨Nat.div_pos hi2 (by omega), Nat.div_le_self nn i,
      triple_div nn i hi1 hi2⟩

theorem block_card (nn aa : Nat) (ha : 1 ≤ aa) :
    ((Finset.Icc 1 nn).filter (fun i => nn / i = aa)).card =
      nn / aa - nn / (aa + 1) := by
  have hset : (Finset.Icc 1 nn).filter (fun i => nn / i = aa) =
      Finset.Ioc (nn / (aa + 1)) (nn / aa) := by
    ext i
    simp only [Finset.mem_filter, Finset.mem_Icc, Finset.mem_Ioc]
    constructor
    · rintro ⟨⟨h1, h2⟩, h3⟩
      constructor
      · by_contra hcon
        push_neg at hcon
        have hup : aa + 1 ≤ nn / i := by
          rw [Nat.le_div_iff_mul_le (by omega : 0 < i)]
          have hx := (Nat.le_div_iff_mul_le (by omega : 0 < aa + 1)).mp hcon
          nlinarith
        rw [h3] at hup
        omega
      · rw [Nat.le_div_iff_mul_le ha]
        have hml : nn / i * i ≤ nn := Nat.div_mul_le_self nn i
        rw [h3] at hml
        nlinarith
    · rintro ⟨h1, h2⟩
      have hi1 : 0 < i := Nat.lt_of_le_of_lt (Nat.zero_le _) h1
      exact ⟨⟨hi1, le_trans h2 (Nat.div_le_self nn aa)⟩, div_block_eq nn aa i h1 h2⟩
  rw [hset, Nat.card_Ioc]

theorem pyInt_pyStr (i : Int) : pyInt (pyStr i) = i := by
  have hd : Nat.ofDigits 10 (Nat.digits 10 i.natAbs) = i.natAbs :=
    Nat.ofDigits_digits 10 i.natAbs
  rcases lt_or_le i 0 with h | h
  · simp [pyStr, pyInt, h]
    rw [hd]
    omega
  · simp [pyStr, pyInt, (by omega : ¬ i < 0)]
    rw [hd]
    omega

end Pyvlova

namespace Pyvlova

/-- Claim C1: for every space constructed with budget `N ≥ 1` and every
per-dimension bound `≥ 1`, ranking and unranking are mutually inverse: for
every index in `[0, size())`, `rank(rev(index)) = index`, and for every tuple
satisfying the nesting rule, `rev(rank(t)) = t`. -/
theorem C1_rank_unrank_bijection (S : GPUTileConfigSpace) (hN : 1 ≤ S.n)
    (hb : ∀ i, i < S.dim → 1 ≤ S.bi i) :
    (∀ idx : Int, 0 ≤ idx → idx < S.size →
      ∃ t, S.rev idx = .ok t ∧ S.rank t = .ok idx) ∧
    (∀ t : List Int, S.legalB t = true →
      ∃ c, S.rank t = .ok c ∧ S.rev c = .ok t) := by
  have hmem := n_mem_aL S hN
  constructor
  · intro idx h0 h1
    rcases Nat.eq_zero_or_pos S.dim with hd | hd
    · exfalso
      rw [GPUTileConfigSpace.size, hd] at h1
      rw [GPUTileConfigSpace.f, GPUTileConfigSpace.fbar,
        if_pos (by norm_num : ((0 : Nat) : Int) - 1 < 0)] at h1
      omega
    · have hsz := size_eq_cnt S hd
      obtain ⟨t, hrev, hlen, hnest, hrank⟩ :=
        revGo_spec S hb S.dim le_rfl S.n idx hmem h0 (by omega)
      refine ⟨t, ?_, ?_⟩
      · rw [GPUTileConfigSpace.rev]
        exact hrev
      · rw [GPUTileConfigSpace.rank, if_pos hlen]
        exact hrank
  · intro t hleg
    rw [GPUTileConfigSpace.legalB, Bool.and_eq_true, decide_eq_true_eq] at hleg
    obtain ⟨hlen, hnest⟩ := hleg
    obtain ⟨c, hrank, hc0, hc1, hrev⟩ :=
      rankGo_spec S hb S.dim le_rfl S.n t hmem hnest
    have htake : t.take S.dim = t := by
      rw [← hlen]
      exact List.take_length t
    rw [htake] at hrev
    refine ⟨c, ?_, ?_⟩
    · rw [GPUTileConfigSpace.rank, if_pos hlen]
      exact hrank
    · rw [GPUTileConfigSpace.rev]
      exact hrev

/-- Witness for C1 at the space `N = 4`, `bound = [2, 2]`, index `3` and
tuple `[2, 1]`. -/
theorem C1_rank_unrank_bijection_witness :
    (∃ t, (Sp 4 [2, 2]).rev 3 = .ok t ∧ (Sp 4 [2, 2]).rank t = .ok 3) ∧
    (∃ c, (Sp 4 [2, 2]).rank [2, 1] = .ok c ∧ (Sp 4 [2, 2]).rev c = .ok [2, 1]) :=
  ⟨(C1_rank_unrank_bijection (Sp 4 [2, 2]) (by norm_num [Sp]) (by decide)).1 3
      (by norm_num) (by decide),
    (C1_rank_unrank_bijection (Sp 4 [2, 2]) (by norm_num [Sp]) (by decide)).2 [2, 1]
      (by decide)⟩

/-- Claim C2: for every space, every `0 ≤ k < dim` and every `n ≥ 0`, the
block-decomposed count `_f(k, n)` (and the memoized `f`) equals the
brute-force count `bf(k, n)`; in particular size of the `N = 4`,
`bound = [2, 2]` space is `4`. -/
theorem C2_block_count_eq_bruteforce (S : GPUTileConfigSpace) (k n : Int)
    (hk0 : 0 ≤ k) (hkd : k < (S.dim : Int)) (hn : 0 ≤ n) :
    S.fbar k n = S.bf k n ∧ S.f k n = S.bf k n ∧ (Sp 4 [2, 2]).size = 4 :=
  ⟨fbar_eq_bf S k n, fbar_eq_bf S k n, rfl⟩

/-- Witness for C2 at the space `N = 8`, `bound = [3, 4]`, `k = 1`, `n = 8`. -/
theorem C2_block_count_eq_bruteforce_witness :
    (Sp 8 [3, 4]).fbar 1 8 = (Sp 8 [3, 4]).bf 1 8 ∧
    (Sp 8 [3, 4]).f 1 8 = (Sp 8 [3, 4]).bf 1 8 ∧ (Sp 4 [2, 2]).size = 4 :=
  C2_block_count_eq_bruteforce (Sp 8 [3, 4]) 1 8 (by norm_num) (by decide)
    (by norm_num)

/-- Counterexample to C3: `g(0, 0, 1)` does not return `0`; the assertion
`n in self.ra` at the head of `g` fails for `n = 0`, so `g` signals an
`AssertionError` instead of being total. -/
theorem C3_counterexample :
    (Sp 4 [2, 2]).g 0 0 1 = .error "AssertionError" ∧
    (Sp 4 [2, 2]).g 0 0 1 ≠ .ok 0 := by
  constructor
  · rfl
  · show (Except.error "AssertionError" : Except String Int) ≠ .ok 0
    simp

/-- Claim C3 (amended): `f` returns `0` whenever `k < 0` or `n ≤ 0` and never
signals; `g` however asserts `n ∈ self.ra` before its guards, so it signals
an `AssertionError` whenever `n` is outside the reachable set (in particular
for every `n ≤ 0`), and returns `0` only when `n ∈ self.ra` and `k < 0` or
`x ≤ 0`. -/
theorem C3_totality_amended (S : GPUTileConfigSpace) :
    (∀ k n : Int, k < 0 ∨ n ≤ 0 → S.fbar k n = 0 ∧ S.f k n = 0) ∧
    (∀ k n x : Int, n ∉ S.aL → S.g k n x = .error "AssertionError") ∧
    (∀ k n x : Int, n ∈ S.aL → k < 0 ∨ x ≤ 0 → S.g k n x = .ok 0) := by
  refine ⟨?_, ?_, ?_⟩
  · intro k n hkn
    have h : S.fbar k n = 0 := by
      rcases lt_or_le k 0 with hk | hk
      · rw [GPUTileConfigSpace.fbar, if_pos hk]
      · have hn2 : n ≤ 0 := by
          rcases hkn with h | h
          · omega
          · exact h
        rw [GPUTileConfigSpace.fbar, if_neg (by omega), fbarN_eq_bfN,
          bfN_nonpos S _ n hn2]
    exact ⟨h, h⟩
  · intro k n x hn
    rw [GPUTileConfigSpace.g, GPUTileConfigSpace.gGo, if_neg hn]
  · intro k n x hn hkx
    obtain ⟨hn1, _⟩ := aL_bounds S n hn
    rw [GPUTileConfigSpace.g, GPUTileConfigSpace.gGo, if_pos hn, if_pos (by tauto)]

/-- Witness for C3 (amended) at the space `N = 4`, `bound = [2, 2]`. -/
theorem C3_totality_amended_witness :
    ((Sp 4 [2, 2]).fbar (-1) 7 = 0 ∧ (Sp 4 [2, 2]).f (-1) 7 = 0) ∧
    (Sp 4 [2, 2]).g 0 0 5 = .error "AssertionError" ∧
    (Sp 4 [2, 2]).g 1 4 (-3) = .ok 0 :=
  ⟨(C3_totality_amended (Sp 4 [2, 2])).1 (-1) 7 (Or.inl (by norm_num)),
    (C3_totality_amended (Sp 4 [2, 2])).2.1 0 0 5 (by decide),
    (C3_totality_amended (Sp 4 [2, 2])).2.2 1 4 (-3) (by decide)
      (Or.inr (by norm_num))⟩

/-- Counterexample to C4: on the space `N = 4`, `bound = [2, 2]` (size 4),
`rev`/`get` at the out-of-range index `10` raise nothing and return the
best-effort tuple `[2, 2]`, and `rank` of the bound-violating tuple `[3, 1]`
raises nothing and returns `2`; on the degenerate space `N = 4`,
`bound = [0, 2]` (size 0), `rev 0` still returns a tuple instead of
signalling. -/
theorem C4_counterexample :
    (Sp 4 [2, 2]).size = 4 ∧ (Sp 4 [2, 2]).rev 10 = .ok [2, 2] ∧
    (Sp 4 [2, 2]).get 10 = .ok ⟨10, 4, [2, 2]⟩ ∧
    (Sp 4 [2, 2]).legalB [3, 1] = false ∧ (Sp 4 [2, 2]).rank [3, 1] = .ok 2 ∧
    (Sp 4 [0, 2]).size = 0 ∧ (Sp 4 [0, 2]).rev 0 = .ok [1, 2] :=
  ⟨rfl, rfl, rfl, rfl, rfl, rfl, rfl⟩

/-- Claim C4 (amended): `rev`/`get` perform no index validation at all — for
every budget `N ≥ 1` they return a (possibly meaningless) tuple for every
integer index, out-of-range ones included; `rank` checks only the tuple
length (its `assert len(x) == self.dim`), not the bounds, so the only
immediate error it raises on a wrong-shaped input is the length assertion. -/
theorem C4_no_range_check_amended (S : GPUTileConfigSpace) (hN : 1 ≤ S.n) :
    (∀ idx : Int, ∃ t, S.rev idx = .ok t) ∧
    (∀ t : List Int, t.length ≠ S.dim → S.rank t = .error "AssertionError") := by
  constructor
  · intro idx
    obtain ⟨t, ht⟩ := revGo_total S S.dim le_rfl S.n idx (n_mem_aL S hN)
    exact ⟨t, by rw [GPUTileConfigSpace.rev]; exact ht⟩
  · intro t ht
    rw [GPUTileConfigSpace.rank, if_neg ht]

/-- Witness for C4 (amended) at the space `N = 4`, `bound = [2, 2]`. -/
theorem C4_no_range_check_amended_witness :
    (∃ t, (Sp 4 [2, 2]).rev 10 = .ok t) ∧
    (Sp 4 [2, 2]).rank [1] = .error "AssertionError" :=
  ⟨(C4_no_range_check_amended (Sp 4 [2, 2]) (by norm_num [Sp])).1 10,
    (C4_no_range_check_amended (Sp 4 [2, 2]) (by norm_num [Sp])).2 [1] (by decide)⟩

/-- Claim C5: with `N ≥ 1`, every budget at which `g` is invoked during
`unrank` of an in-range index or during `rank` of a legal tuple stays in the
reachable quotient set, so the assertion `n in self.ra` and the lookups
`self.ra[n]`, `self.ra[q]` never fail on those paths (the whole computation
returns `.ok`); likewise all the constructor's table-filling calls
`g(i, a[j], a[k])` succeed. -/
theorem C5_reachable_budgets (S : GPUTileConfigSpace) (hN : 1 ≤ S.n) :
    (∀ idx : Int, 0 ≤ idx → idx < S.size → ∃ t, S.rev idx = .ok t) ∧
    (∀ t : List Int, S.legalB t = true → ∃ v, S.rank t = .ok v) ∧
    (∀ i : Nat, i < S.dim → ∀ v w : Int, v ∈ S.aL → w ∈ S.aL →
      ∃ z, S.g ↑i v w = .ok z) := by
  have hmem := n_mem_aL S hN
  refine ⟨?_, ?_, ?_⟩
  · intro idx h0 h1
    obtain ⟨t, ht⟩ := revGo_total S S.dim le_rfl S.n idx hmem
    exact ⟨t, by rw [GPUTileConfigSpace.rev]; exact ht⟩
  · intro t hleg
    rw [GPUTileConfigSpace.legalB, Bool.and_eq_true, decide_eq_true_eq] at hleg
    obtain ⟨hlen, hnest⟩ := hleg
    obtain ⟨c, hc⟩ := rankGo_total S S.dim le_rfl S.n t hmem hnest
    exact ⟨c, by rw [GPUTileConfigSpace.rank, if_pos hlen]; exact hc⟩
  · intro i hi v w hv hw
    exact ⟨S.gm i v w, g_ok S i hi v w hv⟩

/-- Witness for C5 at the space `N = 4`, `bound = [2, 2]`. -/
theorem C5_reachable_budgets_witness :
    (∃ t, (Sp 4 [2, 2]).rev 2 = .ok t) ∧
    (∃ v, (Sp 4 [2, 2]).rank [1, 2] = .ok v) ∧
    (∃ z, (Sp 4 [2, 2]).g 1 2 4 = .ok z) :=
  ⟨(C5_reachable_budgets (Sp 4 [2, 2]) (by norm_num [Sp])).1 2 (by norm_num)
      (by decide),
    (C5_reachable_budgets (Sp 4 [2, 2]) (by norm_num [Sp])).2.1 [1, 2] (by decide),
    (C5_reachable_budgets (Sp 4 [2, 2]) (by norm_num [Sp])).2.2 1 (by decide) 2 4
      (by decide) (by decide)⟩

end Pyvlova

namespace Pyvlova

/-- Counterexample to C6: the constructed space `N = 4`, `bound = [-1]` has
`size() = -1 < 0`, and the constructed space `N = 1`, `bound = []` has
`size() = 0` although `N ≥ 1` and no bound is `< 1` (there are none) — both
halves of the claim fail as stated. -/
theorem C6_counterexample :
    (Sp 4 [-1]).size = -1 ∧
    ((Sp 1 []).size = 0 ∧ 1 ≤ (Sp 1 []).n ∧
      ∀ i, i < (Sp 1 []).dim → 1 ≤ (Sp 1 []).bi i) :=
  ⟨rfl, rfl, by norm_num [Sp], by decide⟩

/-- Claim C6 (amended): for every space with at least one dimension and with
non-negative bounds, `size() ≥ 0`, and `size() = 0` exactly when some
`bound[i] < 1` or `N < 1`.  (The original claim fails for the bound-less
`dim = 0` space and for negative bounds, see the counterexample.) -/
theorem C6_size_zero_iff_degenerate (S : GPUTileConfigSpace) (hdim : 1 ≤ S.dim)
    (hb0 : ∀ i, i < S.dim → 0 ≤ S.bi i) :
    0 ≤ S.size ∧
    (S.size = 0 ↔ ((∃ i, i < S.dim ∧ S.bi i < 1) ∨ S.n < 1)) := by
  obtain ⟨d0, hd0⟩ : ∃ d0, S.dim = d0 + 1 := ⟨S.dim - 1, by omega⟩
  have hsz : S.size = S.bfN d0 S.n := by
    rw [GPUTileConfigSpace.size, hd0,
      show ((d0 + 1 : Nat) : Int) - 1 = ↑d0 from by push_cast; ring, f_natCast]
  constructor
  · rw [hsz]
    exact bfN_nonneg S d0 S.n (fun j hj => hb0 j (by omega))
  · constructor
    · intro hz
      by_contra hcon
      push_neg at hcon
      obtain ⟨hball, hn⟩ := hcon
      have hpos := bfN_pos S d0 S.n (by omega)
        (fun j hj => by
          have h1 := hball j (by omega)
          have h2 := hb0 j (by omega)
          omega)
      omega
    · rintro (⟨i, hi, hbi⟩ | hn)
      · have hbi0 : S.bi i = 0 := by
          have := hb0 i hi
          omega
        rw [hsz]
        exact bfN_zero_bound S d0 S.n i (by omega) hbi0
      · rw [hsz, bfN_nonpos S d0 S.n (by omega)]

/-- Witness for C6 (amended) at the degenerate space `N = 4`,
`bound = [0, 2]`. -/
theorem C6_size_zero_iff_degenerate_witness :
    0 ≤ (Sp 4 [0, 2]).size ∧
    ((Sp 4 [0, 2]).size = 0 ↔
      ((∃ i, i < (Sp 4 [0, 2]).dim ∧ (Sp 4 [0, 2]).bi i < 1) ∨
        (Sp 4 [0, 2]).n < 1)) :=
  C6_size_zero_iff_degenerate (Sp 4 [0, 2]) (by decide) (by decide)

/-- Claim C7: for every data-model space (positive per-dimension bounds),
every `0 ≤ k < dim` and every reachable budget `n`, the prefix count
`g(k, n, ·)` is non-decreasing: `g(k, n, x) ≤ g(k, n, x + 1)` for every `x`. -/
theorem C7_g_monotone (S : GPUTileConfigSpace)
    (hb : ∀ j, j < S.dim → 1 ≤ S.bi j) (k n : Int)
    (hk0 : 0 ≤ k) (hkd : k < (S.dim : Int)) (hn : n ∈ S.aL) (x : Int) :
    ∃ v w : Int, S.g k n x = .ok v ∧ S.g k n (x + 1) = .ok w ∧ v ≤ w := by
  obtain ⟨i, rfl⟩ : ∃ i : Nat, k = ↑i := ⟨k.toNat, by omega⟩
  have hidim : i < S.dim := by exact_mod_cast hkd
  obtain ⟨hn1, _⟩ := aL_bounds S n hn
  exact ⟨S.gm i n x, S.gm i n (x + 1), g_ok S i hidim n x hn,
    g_ok S i hidim n (x + 1) hn,
    gm_mono S i n x (x + 1) hn1 (fun j hj => hb j (by omega)) (by omega)⟩

/-- Witness for C7 at the space `N = 4`, `bound = [2, 2]`, `k = 1`, `n = 2`,
`x = 1`. -/
theorem C7_g_monotone_witness :
    ∃ v w : Int, (Sp 4 [2, 2]).g 1 2 1 = .ok v ∧ (Sp 4 [2, 2]).g 1 2 2 = .ok w ∧
      v ≤ w :=
  C7_g_monotone (Sp 4 [2, 2]) (by decide) 1 2 (by norm_num) (by decide) (by decide) 1

/-- Counterexample to C8: `_f(-1, 4)` (and `f(-1, 4)`) is `0`, not `1`: the
`k < 0` guard returns `0`, so the conceptual base case `f(-1, n) = 1` is not
what the code computes. -/
theorem C8_counterexample :
    (Sp 4 [2, 2]).fbar (-1) 4 = 0 ∧ (Sp 4 [2, 2]).f (-1) 4 = 0 ∧
    (Sp 4 [2, 2]).fbar (-1) 4 ≠ 1 := by
  refine ⟨rfl, rfl, ?_⟩
  intro h
  have h0 : (Sp 4 [2, 2]).fbar (-1) 4 = 0 := rfl
  omega

/-- Claim C8 (amended): the code's base cases are `f(-1, n) = 0` for every
`n` (the conceptual `f(-1, ·) = 1` is inlined into the `k = 0` case), and
`f(0, n) = min(n, bound[0])` for every `n ≥ 1`. -/
theorem C8_base_cases_amended (S : GPUTileConfigSpace) (n : Int) (hn : 1 ≤ n) :
    S.fbar (-1) n = 0 ∧ S.f (-1) n = 0 ∧ S.fbar 0 n = min n (S.bi 0) := by
  have h1 : S.fbar (-1) n = 0 := by
    rw [GPUTileConfigSpace.fbar, if_pos (by norm_num)]
  refine ⟨h1, h1, ?_⟩
  rw [GPUTileConfigSpace.fbar, if_neg (by norm_num),
    show (0 : Int).toNat = 0 from rfl, GPUTileConfigSpace.fbarN, if_neg (by omega)]

/-- Witness for C8 (amended) at the space `N = 4`, `bound = [2, 2]`, `n = 4`. -/
theorem C8_base_cases_amended_witness :
    (Sp 4 [2, 2]).fbar (-1) 4 = 0 ∧ (Sp 4 [2, 2]).f (-1) 4 = 0 ∧
    (Sp 4 [2, 2]).fbar 0 4 = min 4 ((Sp 4 [2, 2]).bi 0) :=
  C8_base_cases_amended (Sp 4 [2, 2]) 4 (by norm_num)

/-- Claim C9: for every budget `N ≥ 1`, `self.a` holds exactly the distinct
values of `N // i` (`1 ≤ i ≤ N`), strictly ascending and without duplicates,
and each parallel entry of `self.l` is `N // a - N // (a + 1)`, which is the
number of `i` in `1..N` with `N // i = a`. -/
theorem C9_divisor_block_lists (S : GPUTileConfigSpace) (hN : 1 ≤ S.n) :
    (∀ v : Int, v ∈ S.aL ↔ ∃ i : Int, 1 ≤ i ∧ i ≤ S.n ∧ S.n.fdiv i = v) ∧
    List.Sorted (· < ·) S.aL ∧ S.aL.Nodup ∧
    (∀ p ∈ S.al, p.2 = S.n.fdiv p.1 - S.n.fdiv (p.1 + 1)) ∧
    (∀ p ∈ S.al, p.2 =
      ↑((Finset.Icc 1 S.n.toNat).filter
        (fun i => S.n.toNat / i = p.1.toNat)).card) := by
  have hcast : S.n = ↑S.n.toNat := by omega
  have hsort : List.Sorted (· < ·) S.aL := by
    have hrw : S.aL = (aGo (↑S.n.toNat) S.n.toNat ↑(1 : Nat)).map Prod.fst := by
      rw [GPUTileConfigSpace.aL, GPUTileConfigSpace.al, hcast]
      simp only [Int.toNat_natCast, Nat.cast_one]
    rw [hrw]
    exact aGo_sorted S.n.toNat S.n.toNat 1 le_rfl
  refine ⟨?_, hsort, hsort.nodup, ?_, ?_⟩
  · intro v
    rw [mem_aL S hN]
    constructor
    · rintro ⟨vv, rfl, h1, h2, h3⟩
      have hip : 1 ≤ S.n.toNat / vv := Nat.div_pos h2 (by omega)
      have hds : S.n.toNat / vv ≤ S.n.toNat := Nat.div_le_self _ _
      have hdsI : (↑(S.n.toNat / vv) : Int) ≤ ↑S.n.toNat := by exact_mod_cast hds
      have hcast2 : (↑S.n.toNat : Int) ≤ S.n := by omega
      refine ⟨↑(S.n.toNat / vv), by exact_mod_cast hip,
        le_trans hdsI hcast2, ?_⟩
      rw [hcast, fdiv_natCast]
      exact_mod_cast h3
    · rintro ⟨i, hi1, hi2, rfl⟩
      obtain ⟨ii, rfl⟩ : ∃ m : Nat, i = ↑m := ⟨i.toNat, by omega⟩
      have hii1 : 1 ≤ ii := by exact_mod_cast hi1
      have hii2 : ii ≤ S.n.toNat := by omega
      rw [hcast, fdiv_natCast]
      exact ⟨S.n.toNat / ii, rfl, Nat.div_pos hii2 hii1, Nat.div_le_self _ _,
        triple_div S.n.toNat ii hii1 hii2⟩
  · intro p hp
    exact aGo_snd S.n S.n.toNat 1 p hp
  · intro p hp
    have h2 := aGo_snd S.n S.n.toNat 1 p hp
    have hp1 : p.1 ∈ S.aL := List.mem_map_of_mem Prod.fst hp
    rw [mem_aL S hN] at hp1
    obtain ⟨aa, hpa, ha1, ha2, ha3⟩ := hp1
    rw [h2, hpa, hcast]
    simp only [Int.toNat_natCast]
    rw [fdiv_natCast, show ((aa : Int) + 1) = ↑(aa + 1) from by push_cast; ring,
      fdiv_natCast, block_card S.n.toNat aa ha1]
    have hle : S.n.toNat / (aa + 1) ≤ S.n.toNat / aa :=
      Nat.div_le_div_left (by omega) (by omega)
    rw [Nat.cast_sub hle]

/-- Witness for C9 at the space `N = 4`, `bound = [2, 2]` and value `2`. -/
theorem C9_divisor_block_lists_witness :
    (2 ∈ (Sp 4 [2, 2]).aL ↔
      ∃ i : Int, 1 ≤ i ∧ i ≤ (Sp 4 [2, 2]).n ∧ (Sp 4 [2, 2]).n.fdiv i = 2) ∧
    List.Sorted (· < ·) (Sp 4 [2, 2]).aL :=
  ⟨(C9_divisor_block_lists (Sp 4 [2, 2]) (by norm_num [Sp])).1 2,
    (C9_divisor_block_lists (Sp 4 [2, 2]) (by norm_num [Sp])).2.1⟩

/-- Claim C10: a point serializes through `to_json_dict` to the flat record
of its (string-encoded) integer index, integer total size and ordered tile
list, and `from_json_dict` reproduces the point's three fields exactly. -/
theorem C10_point_json_roundtrip (p : GPUTileConfigEntity) :
    GPUTileConfigEntity.from_json_dict (GPUTileConfigEntity.to_json_dict p) = p := by
  cases p with
  | mk i tot tile =>
    have htile : List.map (pyInt ∘ pyStr) tile = tile := by
      induction tile with
      | nil => rfl
      | cons hd tl ih => simp [Function.comp, pyInt_pyStr, ih]
    simp [GPUTileConfigEntity.to_json_dict, GPUTileConfigEntity.from_json_dict,
      pyInt_pyStr, List.map_map, htile]

end Pyvlova
